import Mathlib

/-!
# Verification of the `lambdacalc` interpreter (`lc.py`)

A shallow embedding of the untyped lambda-calculus REPL in `lc.py`:
the term model with its binding pass, alpha-equivalence and substitution,
the Church-numeral constructor and decoder, the tokenizer, the shift-reduce
parser and the reducer.  Python exceptions are modelled with `Except PyErr`;
the process-global `Variable.id_counter` is threaded explicitly as a `Nat`.
-/

namespace LC

/-- The Python exceptions that the interpreter can raise. -/
inductive PyErr where
  | syntaxError (msg : String)
  | keyError (msg : String)
  | valueError (msg : String)
  | attributeError (msg : String)
  | stopIteration
deriving DecidableEq, Repr

/-- A `Variable` object of `lc.py`: a name, the globally unique `id` assigned
from `Variable.id_counter` at creation time, and the `bound` flag (initially
`false`, set by the binding pass). -/
structure PyVar where
  name : String
  id : Nat
  bound : Bool
deriving DecidableEq, Repr

/-- The `Term` variants of `lc.py`: `Variable`, `Abstraction` (which stores its
bound-variable descriptor and its body) and `Application` (function `m`,
argument `n`). -/
inductive Term where
  | var (v : PyVar)
  | abs (v : PyVar) (body : Term)
  | app (m n : Term)
deriving DecidableEq, Repr

namespace Term

/-- `Variable.bind` / `Abstraction.bind` / `Application.bind` of `lc.py`.
`t.bind v` walks `t`; a `Variable` whose name equals `v.name` has its `id`
fused with `v.id` and is marked bound, unless it is already bound, in which
case `ValueError('<name> is already bound')` is raised.  An `Abstraction`
whose own bound name equals `v.name` stops the walk (the body is returned
unchanged).  The Python code mutates in place; here the updated term is
returned. -/
def bind : Term → PyVar → Except PyErr Term
  | var w, v =>
    if w.name = v.name then
      if w.bound then .error (.valueError (w.name ++ " is already bound"))
      else .ok (var ⟨w.name, v.id, true⟩)
    else .ok (var w)
  | abs w body, v =>
    if w.name = v.name then .ok (abs w body)
    else do
      let body' ← body.bind v
      .ok (abs w body')
  | app m n, v => do
    let m' ← m.bind v
    let n' ← n.bind v
    .ok (app m' n')

/-- The `bound` property of `lc.py` terms: a `Variable` reports its flag, an
`Abstraction` reports its body's, an `Application` needs both sides. -/
def boundAttr : Term → Bool
  | var v => v.bound
  | abs _ body => body.boundAttr
  | app m n => m.boundAttr && n.boundAttr

/-- `Term.apply(vid, t)` of `lc.py`: substitution of the replacement term for
every `Variable` whose `id` equals `vid`, rebuilding abstractions and
applications without re-running the binder pass. -/
def applyT : Term → Nat → Term → Term
  | var v, vid, r => if v.id = vid then r else var v
  | abs v body, vid, r => abs v (body.applyT vid r)
  | app m n, vid, r => app (m.applyT vid r) (n.applyT vid r)

/-- `alpha_eq` of `lc.py`.  The renaming correspondence maps the smaller of
the two compared `id`s to the larger (Python keeps a dict; here a function
`Nat → Option Nat`, extended functionally since the Python code copies the
dict before updating it). -/
def alpha_eq : Term → Term → (Nat → Option Nat) → Bool
  | var v, var w, renames =>
    renames (min v.id w.id) == some (max v.id w.id)
  | abs v b, abs w c, renames =>
    b.alpha_eq c (fun k =>
      if k = min v.id w.id then some (max v.id w.id) else renames k)
  | app m n, app m' n', renames =>
    m.alpha_eq m' renames && n.alpha_eq n' renames
  | _, _, _ => false

/-- `lrepr` of `lc.py`: the pretty printer.  An `Application` parenthesizes
its function side when that side is an `Abstraction` and its argument side
when that side is not a `Variable`. -/
def lrepr : Term → String
  | var v => v.name
  | abs v body => "λ" ++ v.name ++ "." ++ body.lrepr
  | app m n =>
    (match m with
      | abs _ _ => "(" ++ m.lrepr ++ ")"
      | _ => m.lrepr) ++
    (match n with
      | var _ => n.lrepr
      | _ => "(" ++ n.lrepr ++ ")")

end Term

/-- The `Abstraction` constructor of `lc.py` with `bind=True`: runs the
binding pass of the bound variable over the body and stores the variable
descriptor unchanged. -/
def mkAbs (v : PyVar) (body : Term) : Except PyErr Term := do
  let body' ← body.bind v
  .ok (Term.abs v body')

/-- A `Definition` of `lc.py`: a shorthand name together with its term.  The
constructor rejects terms that are not fully bound. -/
structure Defn where
  name : String
  term : Term
deriving DecidableEq, Repr

/-- The `Definition` constructor: `SyntaxError` unless the term is fully
bound. -/
def mkDefn (name : String) (t : Term) : Except PyErr Defn :=
  if t.boundAttr then .ok ⟨name, t⟩
  else .error (.syntaxError "Shorthands may only have fully bound terms")

/-- The application chain `a.m` built by the mutation loop of
`church_numeral` in `lc.py`: `fSpine c k` is the left-nested application of
`k + 1` fresh variables named `f`, whose ids are `c+1, …, c+k+1` in creation
order (`Variable('f')` inside `Application(Variable('f'), x)` gets `c+1`,
each loop iteration appends another one on the right). -/
def fSpine (c : Nat) : Nat → Term
  | 0 => .var ⟨"f", c + 1, false⟩
  | k + 1 => .app (fSpine c k) (.var ⟨"f", c + 2 + k, false⟩)

/-- `church_numeral(n)` of `lc.py`, with the global id counter `c` threaded
explicitly.  Creation order of the `Variable` objects: `x` gets id `c`; for
`n ≥ 1` the spine variables named `f` get `c+1, …, c+n`; then the binder of
the outer abstraction gets the next id and the binder of the inner
abstraction the one after; both abstractions run their binding pass. -/
def church_numeral (n c : Nat) : Except PyErr (Term × Nat) :=
  if n = 0 then do
    let inner ← mkAbs ⟨"x", c + 2, false⟩ (.var ⟨"x", c, false⟩)
    let outer ← mkAbs ⟨"f", c + 1, false⟩ inner
    .ok (outer, c + 3)
  else do
    let a := Term.app (fSpine c (n - 1)) (.var ⟨"x", c, false⟩)
    let inner ← mkAbs ⟨"x", c + n + 2, false⟩ a
    let outer ← mkAbs ⟨"f", c + n + 1, false⟩ inner
    .ok (outer, c + n + 3)

/-- The `while isinstance(t, Application)` loop of `church_to_int`: walks the
left spine counting applications whose argument is a `Variable` bound to the
outer binder `f`, and finally requires the head of the spine to be such a
variable as well. -/
def churchLoop (fid : Nat) : Term → Nat → Option Nat
  | .app m n, i =>
    match n with
    | .var w => if w.id = fid then churchLoop fid m (i + 1) else none
    | _ => none
  | .var w, i => if w.id = fid then some i else none
  | .abs _ _, _ => none

/-- `church_to_int` of `lc.py`.  Returns `Except.ok none` where the Python
code returns `None`, `Except.ok (some n)` where it returns `n`.  When the
body of the inner abstraction is a `Variable` other than the inner binder,
the Python code evaluates `t.n` on a `Variable` object and raises
`AttributeError`; that is the `.error` case. -/
def church_to_int : Term → Except PyErr (Option Nat)
  | .abs f (.abs x body) =>
    match body with
    | .var w =>
      if w.id = x.id then .ok (some 0)
      else .error (.attributeError "Variable object has no attribute n")
    | .abs _ _ => .ok none
    | .app m n =>
      match n with
      | .var w => if w.id = x.id then .ok (churchLoop f.id m 1) else .ok none
      | _ => .ok none
  | _ => .ok none

/-- One production step of the generator `recursive_reduction` of `lc.py`:
the next term the generator yields from `t`, or `none` when the generator is
exhausted.  A top-level redex is contracted; otherwise the function side of
an application is stepped if it is an application itself; otherwise (the
function side being a variable) an application yields nothing; the body of
an abstraction is stepped and rewrapped with `bind=False`. -/
def reductionStep : Term → Option Term
  | .var _ => none
  | .abs v body => (reductionStep body).map (Term.abs v)
  | .app m n =>
    match m with
    | .abs v body => some (body.applyT v.id n)
    | .app _ _ => (reductionStep m).map (fun t => Term.app t n)
    | .var _ => none

/-- The sequence of terms yielded by `recursive_reduction`, truncated at
`fuel` elements: the generator yields `t₁ = step t₀`, `t₂ = step t₁`, … until
the step function is exhausted.  (The Python generator is this unfolding:
each `while` iteration re-enters the same dispatch on the term produced by
the previous yield, taking the first element of a fresh recursive generator
for the function side, and the trailing abstraction descent wraps the body's
whole sequence, which coincides with iterating the step inside the body.) -/
def recursive_reduction (fuel : Nat) (t : Term) : List Term :=
  match fuel with
  | 0 => []
  | fuel + 1 =>
    match reductionStep t with
    | none => []
    | some t' => t' :: recursive_reduction fuel t'

/-- A beta-redex exists somewhere in the term (function sides, argument
sides and abstraction bodies all searched). -/
def hasRedex : Term → Bool
  | .var _ => false
  | .abs _ body => hasRedex body
  | .app m n =>
    (match m with | .abs _ _ => true | _ => false) || hasRedex m || hasRedex n

/-- A beta-redex reachable by the reducer's actual descent: through the
function side of applications and through abstraction bodies, never through
the argument side of an application. -/
def reachableRedex : Term → Bool
  | .var _ => false
  | .abs _ body => reachableRedex body
  | .app m _ =>
    match m with
    | .abs _ _ => true
    | .app _ _ => reachableRedex m
    | .var _ => false

/-! ## Tokenizer -/

/-- Python `\s` restricted to the ASCII range (the inputs of interest are
ASCII apart from `λ`, which is not whitespace). -/
def pyIsSpace (c : Char) : Bool :=
  c = ' ' || c = '\t' || c = '\n' || c = '\r' || c = '\x0b' || c = '\x0c'

/-- The five control lexemes of `CtrlTok.stringmap`. -/
inductive CtrlKind where
  | lparen | rparen | lambdaTok | dot | defineShorthand
deriving DecidableEq, Repr

def isCtrlChar (c : Char) : Bool :=
  c = '(' || c = ')' || c = 'λ' || c = '.' || c = '='

def ctrlOf (c : Char) : CtrlKind :=
  if c = '(' then .lparen
  else if c = ')' then .rparen
  else if c = 'λ' then .lambdaTok
  else if c = '.' then .dot
  else .defineShorthand

/-- The raw lexeme captured by one regex match of `tokens_p`, before the
token object is built (shorthand content not yet upper-cased, variable id
not yet assigned). -/
inductive Lexeme where
  | ctrl (k : CtrlKind)
  | shorthand (content : String)
  | numeral (digits : String)
  | variableChar (c : Char)
deriving DecidableEq, Repr

/-- The token objects yielded by `tokenize`: control tokens, `Shorthand`
strings (either `{…}` content upper-cased or a bare numeral's digit string)
and freshly created `Variable`s. -/
inductive Token where
  | ctrl (k : CtrlKind)
  | shorthand (s : String)
  | varTok (v : PyVar)
deriving DecidableEq, Repr

/-- The character class of `[^}]` in the shorthand rule. -/
def notRBrace (d : Char) : Bool := d ≠ '\x7d'

/-- The alternation `(?P<control>…)|(?P<shorthand>…)|(?P<numeral>…)|
(?P<variable>…)` of `tokens_p`, attempted at the current position (no
leading whitespace handling here).  The branches are tried in the regex's
order: a control character; `\{[^}]+\}` (at least one non-brace character,
then the closing brace); a maximal digit run; any single character other
than a digit, a brace, `λ` or `.`. -/
def tokAt : List Char → Option (Lexeme × List Char)
  | [] => none
  | c :: rest =>
    if isCtrlChar c then some (.ctrl (ctrlOf c), rest)
    else if c = '\x7b' then
      match rest.dropWhile notRBrace with
      | _ :: rest'' =>
        if (rest.takeWhile notRBrace).isEmpty then none
        else some (.shorthand ⟨rest.takeWhile notRBrace⟩, rest'')
      | [] => none
    else if c.isDigit then
      some (.numeral ⟨(c :: rest).takeWhile Char.isDigit⟩,
            (c :: rest).dropWhile Char.isDigit)
    else if c = '\x7d' then none
    else some (.variableChar c, rest)

/-- One match of `tokens_p` at the current position, with the surrounding
`\s*` groups.  The leading `\s*` is greedy but backtracks: if no token
matches after the whitespace run, the last whitespace character itself
matches the variable class `[^0-9{}λ.]`, so a nonempty whitespace run never
fails to match.  The trailing `\s*` greedily consumes whitespace after the
token. -/
def matchTok (cs : List Char) : Option (Lexeme × List Char) :=
  match tokAt (cs.dropWhile (fun c => pyIsSpace c)) with
  | some (l, rest') => some (l, rest'.dropWhile (fun c => pyIsSpace c))
  | none =>
    match (cs.takeWhile (fun c => pyIsSpace c)).getLast? with
    | some cw => some (.variableChar cw, cs.dropWhile (fun c => pyIsSpace c))
    | none => none

/-- Python's `str.upper` for the ASCII range (shorthand names in the
grammar are ASCII). -/
def pyCharUpper (c : Char) : Char :=
  if 'a' ≤ c && c ≤ 'z' then Char.ofNat (c.toNat - 32) else c

def pyUpper (s : String) : String := ⟨s.data.map pyCharUpper⟩

/-- Builds the token object `tokenize` yields for a lexeme: `Shorthand`
content is upper-cased, a numeral keeps its digit string, and a variable is
a fresh `Variable` whose id is drawn from the global counter. -/
def mkToken (l : Lexeme) (c : Nat) : Token × Nat :=
  match l with
  | .ctrl k => (.ctrl k, c)
  | .shorthand s => (.shorthand (pyUpper s), c)
  | .numeral s => (.shorthand s, c)
  | .variableChar ch => (.varTok ⟨String.singleton ch, c, false⟩, c + 1)

theorem tokAt_consumes {cs rest : List Char} {l : Lexeme}
    (h : tokAt cs = some (l, rest)) : rest.length < cs.length := by
  match cs with
  | [] => simp [tokAt] at h
  | c :: cs' =>
    by_cases h1 : isCtrlChar c
    · simp [tokAt, h1] at h
      rcases h with ⟨-, h6⟩
      subst h6
      simp
    · by_cases h2 : c = '\x7b'
      · simp only [tokAt] at h
        rw [if_neg h1, if_pos h2] at h
        split at h
        case _ d rest'' h3 =>
          split_ifs at h
          simp only [Option.some.injEq, Prod.mk.injEq] at h
          obtain ⟨-, h6⟩ := h
          have hlen : (d :: rest'').length ≤ cs'.length :=
            h3 ▸ List.Sublist.length_le (List.dropWhile_sublist _)
          subst h6
          simp only [List.length_cons] at hlen ⊢
          omega
        case _ h3 => simp at h
      · by_cases h3 : c.isDigit
        · simp [tokAt, h1, h2, h3] at h
          rcases h with ⟨-, h6⟩
          have hlen : (List.dropWhile Char.isDigit cs').length ≤ cs'.length :=
            List.Sublist.length_le (List.dropWhile_sublist _)
          subst h6
          simp only [List.length_cons]
          omega
        · by_cases h4 : c = '\x7d'
          · subst h4
            have e1 : isCtrlChar '\x7d' = false := by decide
            have e2 : Char.isDigit '\x7d' = false := by decide
            have e3 : '\x7d' ≠ '\x7b' := by decide
            simp [tokAt, e1, e2, e3] at h
          · simp [tokAt, h1, h2, h3, h4] at h
            rcases h with ⟨-, h6⟩
            subst h6
            simp

theorem matchTok_consumes {cs rest : List Char} {l : Lexeme}
    (h : matchTok cs = some (l, rest)) : rest.length < cs.length := by
  rcases h1 : tokAt (cs.dropWhile (fun c => pyIsSpace c)) with _ | ⟨l', rest'⟩
  · rcases h2 : (cs.takeWhile (fun c => pyIsSpace c)).getLast? with _ | cw <;>
      simp [matchTok, h1, h2] at h
    rcases h with ⟨-, h3⟩
    have hne : cs.takeWhile (fun c => pyIsSpace c) ≠ [] := by
      intro hx
      rw [hx] at h2
      simp at h2
    have hsum : (cs.takeWhile (fun c => pyIsSpace c)).length
        + (cs.dropWhile (fun c => pyIsSpace c)).length = cs.length := by
      rw [← List.length_append,
        List.takeWhile_append_dropWhile (fun c => pyIsSpace c) cs]
    have hpos : 0 < (cs.takeWhile (fun c => pyIsSpace c)).length :=
      List.length_pos.mpr hne
    subst h3
    omega
  · simp [matchTok, h1] at h
    rcases h with ⟨-, h3⟩
    have h4 : rest'.length < (cs.dropWhile (fun c => pyIsSpace c)).length :=
      tokAt_consumes h1
    have h5 : (cs.dropWhile (fun c => pyIsSpace c)).length ≤ cs.length :=
      List.Sublist.length_le (List.dropWhile_sublist _)
    have h6 : (rest'.dropWhile (fun c => pyIsSpace c)).length ≤ rest'.length :=
      List.Sublist.length_le (List.dropWhile_sublist _)
    subst h3
    omega

/-- `tokenize` of `lc.py` on a character list, threading the id counter,
with a step budget (every match consumes at least one character, so a budget
above the length of the input never runs out; `tokenizeChars` below supplies
it).  The Python generator scans with `finditer`; a match that does not
start at the end of the previous one, or leftover text at the end, raises
`SyntaxError('malformed input')`.  Since a match attempt at the current
position succeeds exactly when `matchTok` does, both error sites collapse
to the single `none` case here. -/
def tokenizeGo : Nat → List Char → Nat → Except PyErr (List Token × Nat)
  | _, [], c => .ok ([], c)
  | 0, _ :: _, c => .ok ([], c)
  | fuel + 1, ch :: cs, c =>
    match matchTok (ch :: cs) with
    | none => .error (.syntaxError "malformed input")
    | some (l, rest) =>
      match tokenizeGo fuel rest (mkToken l c).2 with
      | .ok (toks, c'') => .ok ((mkToken l c).1 :: toks, c'')
      | .error e => .error e

/-- `tokenize` of `lc.py` on a character list (the budget `cs.length + 1`
always suffices). -/
def tokenizeChars (cs : List Char) (c : Nat) : Except PyErr (List Token × Nat) :=
  tokenizeGo (cs.length + 1) cs c

theorem tokenizeGo_congr :
    ∀ {fuel₁ : Nat} {cs : List Char} {fuel₂ c : Nat}, cs.length < fuel₁ →
      cs.length < fuel₂ → tokenizeGo fuel₁ cs c = tokenizeGo fuel₂ cs c := by
  intro fuel₁
  induction fuel₁ with
  | zero => intro cs fuel₂ c h₁ h₂; omega
  | succ fuel ih =>
    intro cs fuel₂ c h₁ h₂
    match cs, fuel₂ with
    | [], fuel₂ => cases fuel₂ <;> rfl
    | ch :: cs', 0 => omega
    | ch :: cs', fuel₂ + 1 =>
      simp only [tokenizeGo]
      rcases hm : matchTok (ch :: cs') with _ | ⟨l, rest⟩
      · rfl
      · dsimp only
        have hr : rest.length < (ch :: cs').length := matchTok_consumes hm
        simp only [List.length_cons] at h₁ h₂ hr
        rw [show tokenizeGo fuel rest (mkToken l c).2
            = tokenizeGo fuel₂ rest (mkToken l c).2 from ih (by omega) (by omega)]

theorem tokenizeChars_cons (ch : Char) (cs : List Char) (c : Nat) :
    tokenizeChars (ch :: cs) c =
      match matchTok (ch :: cs) with
      | none => .error (.syntaxError "malformed input")
      | some (l, rest) =>
        match tokenizeChars rest (mkToken l c).2 with
        | .ok (toks, c'') => .ok ((mkToken l c).1 :: toks, c'')
        | .error e => .error e := by
  show tokenizeGo ((ch :: cs).length + 1) (ch :: cs) c = _
  simp only [List.length_cons, tokenizeGo]
  rcases hm : matchTok (ch :: cs) with _ | ⟨l, rest⟩
  · rfl
  · dsimp only
    have hr : rest.length < (ch :: cs).length := matchTok_consumes hm
    simp only [List.length_cons] at hr
    rw [show tokenizeGo (cs.length + 1) rest (mkToken l c).2
        = tokenizeChars rest (mkToken l c).2 from tokenizeGo_congr (by omega) (by omega)]

/-- `tokenize` of `lc.py` on a source string. -/
def tokenize (code : String) (c : Nat) : Except PyErr (List Token × Nat) :=
  tokenizeChars code.data c

/-- The character-level description of a position where the scan cannot
advance: the current character is not whitespace (a whitespace character
always matches, if need be as a variable), and it is either a bare `}` or a
`{` that does not open a well-formed shorthand (`{[^}]+}`): no closing
brace, or no content before it.  Every other character starts a control,
shorthand, numeral or variable token. -/
def badStart : List Char → Bool
  | [] => false
  | c :: rest =>
    !(pyIsSpace c) &&
      (c = '\x7d' ||
        (c = '\x7b' &&
          ((rest.takeWhile notRBrace).isEmpty || (rest.dropWhile notRBrace).isEmpty)))

/-- The scan positions `finditer` visits: the whole input, and the
remainder after each successful contiguous match. -/
inductive ScanReach : List Char → List Char → Prop where
  | refl (cs : List Char) : ScanReach cs cs
  | step {cs cs' rest : List Char} {l : Lexeme} :
      ScanReach cs cs' → matchTok cs' = some (l, rest) → ScanReach cs rest

theorem ScanReach.trans {cs₁ cs₂ cs₃ : List Char}
    (h₁ : ScanReach cs₁ cs₂) (h₂ : ScanReach cs₂ cs₃) : ScanReach cs₁ cs₃ := by
  induction h₂ with
  | refl => exact h₁
  | step h₂' hm ih => exact .step ih hm

theorem tokAt_eq_none_iff (c : Char) (rest : List Char) :
    tokAt (c :: rest) = none ↔
      (c = '\x7d' ∨ (c = '\x7b' ∧
        (rest.takeWhile notRBrace = [] ∨ rest.dropWhile notRBrace = []))) := by
  simp only [tokAt]
  by_cases h1 : isCtrlChar c
  · have hne1 : c ≠ '\x7d' := by
      intro h
      subst h
      simp [isCtrlChar] at h1
    have hne2 : c ≠ '\x7b' := by
      intro h
      subst h
      simp [isCtrlChar] at h1
    simp [h1, hne1, hne2]
  · by_cases h2 : c = '\x7b'
    · subst h2
      have hb : ('\x7b' : Char) ≠ '\x7d' := by decide
      simp only [h1, if_false, if_pos rfl]
      rcases h3 : List.dropWhile notRBrace rest with _ | ⟨d, rest''⟩
      · simp [h3, hb, List.isEmpty_iff]
      · by_cases h5 : rest.takeWhile notRBrace = []
        · simp [h3, h5, hb, List.isEmpty_iff]
        · simp [h3, h5, hb, List.isEmpty_iff]
    · by_cases h3 : c.isDigit
      · have hne1 : c ≠ '\x7d' := by
          intro h
          subst h
          simp at h3
        simp [h1, h2, h3, hne1]
      · by_cases h4 : c = '\x7d'
        · subst h4
          simp [isCtrlChar, h2, h3]
        · simp [h1, h2, h3, h4]

theorem matchTok_eq_none_iff (cs : List Char) :
    matchTok cs = none ↔ (cs = [] ∨ badStart cs = true) := by
  rcases cs with _ | ⟨c, rest⟩
  · simp [matchTok, tokAt, badStart]
  · by_cases hws : pyIsSpace c = true
    · have htw : (c :: rest).takeWhile (fun x => pyIsSpace x) =
          c :: rest.takeWhile (fun x => pyIsSpace x) := by
        simp [List.takeWhile_cons, hws]
      constructor
      · intro hm
        exfalso
        simp only [matchTok] at hm
        rcases h1 : tokAt ((c :: rest).dropWhile (fun x => pyIsSpace x)) with _ | ⟨l, r⟩ <;>
          rw [h1] at hm
        · rw [htw] at hm
          rcases h2 : (c :: List.takeWhile (fun x => pyIsSpace x) rest).getLast? with _ | cw
          · simp at h2
          · rw [h2] at hm
            simp at hm
        · simp at hm
      · intro hb
        exfalso
        rcases hb with hb | hb
        · cases hb
        · simp [badStart, hws] at hb
    · have hdw : (c :: rest).dropWhile (fun x => pyIsSpace x) = c :: rest := by
        simp [List.dropWhile_cons, hws]
      have htw : (c :: rest).takeWhile (fun x => pyIsSpace x) = [] := by
        simp [List.takeWhile_cons, hws]
      simp only [matchTok, hdw, htw]
      rcases h1 : tokAt (c :: rest) with _ | ⟨l, r⟩
      · simp only [List.getLast?_nil]
        rw [tokAt_eq_none_iff] at h1
        constructor
        · intro _
          right
          simp only [badStart, hws, Bool.not_eq_true] at hws ⊢
          simp only [hws, Bool.not_false, Bool.true_and, Bool.or_eq_true,
            Bool.and_eq_true, decide_eq_true_eq, List.isEmpty_iff]
          exact h1
        · intro _
          trivial
      · constructor
        · intro hm
          cases hm
        · intro hb
          exfalso
          rcases hb with hb | hb
          · cases hb
          · have hws' : pyIsSpace c = false := Bool.not_eq_true _ |>.mp hws
            simp only [badStart, hws', Bool.not_false, Bool.true_and, Bool.or_eq_true,
              Bool.and_eq_true, decide_eq_true_eq, List.isEmpty_iff] at hb
            have hnone : tokAt (c :: rest) = none := (tokAt_eq_none_iff c rest).mpr hb
            rw [hnone] at h1
            cases h1

theorem ScanReach_nil {suffix : List Char} (h : ScanReach [] suffix) :
    suffix = [] := by
  induction h with
  | refl => rfl
  | step h' hm ih =>
    subst ih
    cases hm

theorem scanReach_decompose {cs suffix rest : List Char} {l : Lexeme}
    (hm : matchTok cs = some (l, rest)) (h : ScanReach cs suffix) :
    suffix = cs ∨ ScanReach rest suffix := by
  induction h with
  | refl => exact Or.inl rfl
  | step h' hm' ih =>
    rcases ih with rfl | hr
    · have heq := hm.symm.trans hm'
      injection heq with heq'
      injection heq' with h1 h2
      subst h2
      exact Or.inr (.refl _)
    · exact Or.inr (.step hr hm')

theorem tokenizeChars_error_iff :
    ∀ (n : Nat) (cs : List Char), cs.length ≤ n → ∀ (c : Nat),
      (tokenizeChars cs c = .error (.syntaxError "malformed input") ↔
        ∃ suffix, ScanReach cs suffix ∧ badStart suffix = true) := by
  intro n
  induction n with
  | zero =>
    intro cs hlen c
    have hnil : cs = [] := List.length_eq_zero.mp (Nat.le_zero.mp hlen)
    subst hnil
    constructor
    · intro he
      cases he
    · rintro ⟨suffix, hr, hb⟩
      have := ScanReach_nil hr
      subst this
      cases hb
  | succ n ih =>
    intro cs hlen c
    rcases cs with _ | ⟨ch, cs'⟩
    · constructor
      · intro he
        cases he
      · rintro ⟨suffix, hr, hb⟩
        have := ScanReach_nil hr
        subst this
        cases hb
    · rcases hm : matchTok (ch :: cs') with _ | ⟨l, rest⟩
      · constructor
        · intro _
          refine ⟨ch :: cs', .refl _, ?_⟩
          rcases (matchTok_eq_none_iff (ch :: cs')).mp hm with h | h
          · cases h
          · exact h
        · intro _
          rw [tokenizeChars_cons, hm]
      · have hrest : rest.length ≤ n := by
          have hc := matchTok_consumes hm
          simp only [List.length_cons] at hc hlen
          omega
        have ihr := ih rest hrest (mkToken l c).2
        constructor
        · intro he
          rw [tokenizeChars_cons, hm] at he
          dsimp only at he
          rcases hrec : tokenizeChars rest (mkToken l c).2 with e' | ⟨toks, c''⟩ <;>
            rw [hrec] at he
          · injection he with he'
            subst he'
            obtain ⟨suffix, hr', hb⟩ := ihr.mp hrec
            exact ⟨suffix, ScanReach.trans (.step (.refl _) hm) hr', hb⟩
          · cases he
        · rintro ⟨suffix, hr, hb⟩
          rcases scanReach_decompose hm hr with rfl | hr'
          · have := (matchTok_eq_none_iff (ch :: cs')).mpr (Or.inr hb)
            rw [this] at hm
            cases hm
          · have he' := ihr.mpr ⟨suffix, hr', hb⟩
            rw [tokenizeChars_cons, hm]
            dsimp only
            rw [he']

/-! ## Parser -/

/-- The elements the shift-reduce parser pushes on its stack: control
tokens, `Shorthand` strings, `Term`s (a shifted `Variable` token is itself a
`Term`) and `Definition`s. -/
inductive StackElem where
  | ctrl (k : CtrlKind)
  | shorthand (s : String)
  | term (t : Term)
  | defn (d : Defn)
deriving DecidableEq, Repr

/-- Shifting a token onto the stack (a `Variable` token is pushed as the
`Term` it is). -/
def pushTok : Token → StackElem
  | .ctrl k => .ctrl k
  | .shorthand s => .shorthand s
  | .varTok v => .term (.var v)

/-- `digits_p.match(s)`: `\d+` anchored at the start of the string, i.e. the
first character is a digit. -/
def startsWithDigit (s : String) : Bool :=
  match s.data with
  | [] => false
  | c :: _ => c.isDigit

/-- The loop of `pyInt` over the characters after the leading digit:
Python's `int()` accepts digits with single underscores between digits. -/
def pyIntLoop : List Char → Nat → Option Nat
  | [], acc => some acc
  | '_' :: d :: rest, acc =>
    if d.isDigit then pyIntLoop rest (acc * 10 + (d.toNat - '0'.toNat)) else none
  | d :: rest, acc =>
    if d.isDigit then pyIntLoop rest (acc * 10 + (d.toNat - '0'.toNat)) else none

/-- Python's `int(s)` for the strings that can reach it here (the parser
only calls it when the first character is a digit, so no sign handling is
needed): optional surrounding whitespace, then digits with single
underscores allowed between digits. -/
def pyInt (s : String) : Option Nat :=
  match (((s.data.dropWhile (fun c => pyIsSpace c)).reverse.dropWhile
      (fun c => pyIsSpace c)).reverse : List Char) with
  | [] => none
  | d :: rest =>
    if d.isDigit then pyIntLoop rest (d.toNat - '0'.toNat) else none

/-- Dictionary lookup in the caller-supplied `shorthands` table. -/
def lookupTbl : List (String × Term) → String → Option Term
  | [], _ => none
  | (k, v) :: rest, s => if k = s then some v else lookupTbl rest s

/-- Python `repr` of the (plain ASCII) shorthand strings appearing in the
`KeyError` message. -/
def pyRepr (s : String) : String := "'" ++ s ++ "'"

/-- Reduction 1, `Term -> ( Term )`: fires when the top of the stack is
`) Term (`. -/
def tryParenRed : List StackElem → Option (List StackElem)
  | .ctrl .rparen :: .term t :: .ctrl .lparen :: rest => some (.term t :: rest)
  | _ => none

/-- Reduction 2, `Application -> Term Term`: the two topmost elements are
terms; the lower one is the function, the upper one the argument. -/
def tryAppRed : List StackElem → Option (List StackElem)
  | .term n :: .term m :: rest => some (.term (.app m n) :: rest)
  | _ => none

/-- Reduction 3 pattern, `Abstraction -> λ Variable . Term`: returns the
binder variable, the body and the remaining stack. -/
def tryAbsRed : List StackElem → Option (PyVar × Term × List StackElem)
  | .term t :: .ctrl .dot :: .term (.var x) :: .ctrl .lambdaTok :: rest =>
    some (x, t, rest)
  | _ => none

/-- Reduction 4 pattern, `Definition -> Shorthand = Term`. -/
def tryDefnRed : List StackElem → Option (String × Term × List StackElem)
  | .term t :: .ctrl .defineShorthand :: .shorthand s :: rest => some (s, t, rest)
  | _ => none

/-- Reduction 5 pattern: a `Shorthand` on top of the stack. -/
def tryShRed : List StackElem → Option (String × List StackElem)
  | .shorthand s :: rest => some (s, rest)
  | _ => none

/-- The lookahead gate of reduction 3: the lookahead is `None` (no pending
tokens) or a closing parenthesis. -/
def absGate : List Token → Bool
  | [] => true
  | .ctrl .rparen :: _ => true
  | _ => false

/-- The lookahead gate of reduction 5: the lookahead is not `=` (a missing
lookahead, `None`, passes the `isinstance` test vacuously). -/
def notDefineNext : List Token → Bool
  | .ctrl .defineShorthand :: _ => false
  | _ => true

/-- The number of `Shorthand` elements on the stack (part of the parser's
termination measure). -/
def shCount : List StackElem → Nat
  | [] => 0
  | .ctrl _ :: rest => shCount rest
  | .shorthand _ :: rest => shCount rest + 1
  | .term _ :: rest => shCount rest
  | .defn _ :: rest => shCount rest

theorem shCount_cons_le (e : StackElem) (st : List StackElem) :
    shCount (e :: st) ≤ shCount st + 1 := by
  cases e <;> simp [shCount]

theorem tryParenRed_spec {st st' : List StackElem}
    (h : tryParenRed st = some st') :
    st'.length + shCount st' < st.length + shCount st := by
  unfold tryParenRed at h
  split at h
  · cases Option.some.inj h
    simp [shCount]
  · simp at h

theorem tryAppRed_spec {st st' : List StackElem}
    (h : tryAppRed st = some st') :
    st'.length + shCount st' < st.length + shCount st := by
  unfold tryAppRed at h
  split at h
  · cases Option.some.inj h
    simp [shCount]
  · simp at h

theorem tryAbsRed_spec {st : List StackElem} {x : PyVar} {t : Term}
    {rest : List StackElem} (h : tryAbsRed st = some (x, t, rest)) :
    rest.length + 1 + shCount rest < st.length + shCount st := by
  unfold tryAbsRed at h
  split at h
  · simp only [Option.some.injEq, Prod.mk.injEq] at h
    obtain ⟨rfl, rfl, rfl⟩ := h
    simp [shCount]
  · simp at h

theorem tryDefnRed_spec {st : List StackElem} {s : String} {t : Term}
    {rest : List StackElem} (h : tryDefnRed st = some (s, t, rest)) :
    rest.length + 1 + shCount rest + 1 < st.length + shCount st := by
  unfold tryDefnRed at h
  split at h
  · simp only [Option.some.injEq, Prod.mk.injEq] at h
    obtain ⟨rfl, rfl, rfl⟩ := h
    simp [shCount]
    omega
  · simp at h

theorem tryShRed_spec {st : List StackElem} {s : String}
    {rest : List StackElem} (h : tryShRed st = some (s, rest)) :
    rest.length + 1 + shCount rest < st.length + shCount st := by
  unfold tryShRed at h
  split at h
  · simp only [Option.some.injEq, Prod.mk.injEq] at h
    obtain ⟨rfl, rfl⟩ := h
    simp [shCount]
  · simp at h

/-- The state of the parser's `while True` loop: the stack (head = top), the
remaining input with the lookahead at its head (`[]` plays the role of
`lookahead is None`), and the global id counter. -/
abbrev PState := List StackElem × List Token × Nat

/-- The termination measure of the parse loop. -/
def pmeasure (s : PState) : Nat :=
  3 * s.2.1.length + s.1.length + shCount s.1

/-- One iteration of the `while True` body of `parse` in `lc.py`: the five
reductions are attempted in priority order (with their lookahead gates),
then a shift; `.inl` is the next loop state, `.inr` leaves the loop (either
the final stack at `break`, or a raised exception). -/
def pstep (tbl : List (String × Term)) :
    PState → PState ⊕ Except PyErr (List StackElem × Nat)
  | (stack, pending, c) =>
    match tryParenRed stack with
    | some stack' => .inl (stack', pending, c)
    | none =>
    match tryAppRed stack with
    | some stack' => .inl (stack', pending, c)
    | none =>
    match (if absGate pending then tryAbsRed stack else none) with
    | some (x, t, rest) =>
      match mkAbs x t with
      | .ok a => .inl (.term a :: rest, pending, c)
      | .error e => .inr (.error e)
    | none =>
    match (if pending.isEmpty then tryDefnRed stack else none) with
    | some (s, t, rest) =>
      if startsWithDigit s then
        .inr (.error (.syntaxError "Church numerals cannot be redefined"))
      else
        match mkDefn s t with
        | .ok d => .inl (.defn d :: rest, pending, c)
        | .error e => .inr (.error e)
    | none =>
    match (if notDefineNext pending then tryShRed stack else none) with
    | some (s, rest) =>
      if startsWithDigit s then
        match pyInt s with
        | some n =>
          match church_numeral n c with
          | .ok (t, c') => .inl (.term t :: rest, pending, c')
          | .error e => .inr (.error e)
        | none =>
          .inr (.error (.valueError
            ("invalid literal for int() with base 10: " ++ pyRepr s)))
      else
        match lookupTbl tbl s with
        | some t => .inl (.term t :: rest, pending, c)
        | none => .inr (.error (.keyError ("undefined shorthand " ++ pyRepr s)))
    | none =>
    match pending with
    | [] => .inr (.ok (stack, c))
    | tok :: rest => .inl (pushTok tok :: stack, rest, c)

theorem pstep_inl {tbl : List (String × Term)} {s s' : PState}
    (h : pstep tbl s = .inl s') : pmeasure s' < pmeasure s := by
  obtain ⟨stack, pending, c⟩ := s
  simp only [pstep] at h
  split at h
  · rename_i stack' h1
    cases h
    have := tryParenRed_spec h1
    simp only [pmeasure]
    omega
  split at h
  · rename_i stack' h2
    cases h
    have := tryAppRed_spec h2
    simp only [pmeasure]
    omega
  split at h
  · rename_i x t rest h3
    have h3' : tryAbsRed stack = some (x, t, rest) := by
      by_cases hg : absGate pending = true
      · rwa [if_pos hg] at h3
      · rw [if_neg hg] at h3
        cases h3
    split at h
    · cases h
      have := tryAbsRed_spec h3'
      simp only [pmeasure, List.length_cons, shCount]
      omega
    · cases h
  split at h
  · rename_i s' t rest h4
    have h4' : tryDefnRed stack = some (s', t, rest) := by
      by_cases hg : pending.isEmpty = true
      · rwa [if_pos hg] at h4
      · rw [if_neg hg] at h4
        cases h4
    split at h
    · cases h
    · split at h
      · cases h
        have := tryDefnRed_spec h4'
        simp only [pmeasure, List.length_cons, shCount]
        omega
      · cases h
  split at h
  · rename_i s' rest h5
    have h5' : tryShRed stack = some (s', rest) := by
      by_cases hg : notDefineNext pending = true
      · rwa [if_pos hg] at h5
      · rw [if_neg hg] at h5
        cases h5
    have hspec := tryShRed_spec h5'
    split at h
    · split at h
      · split at h
        · cases h
          simp only [pmeasure, List.length_cons, shCount]
          omega
        · cases h
      · cases h
    · split at h
      · cases h
        simp only [pmeasure, List.length_cons, shCount]
        omega
      · cases h
  rcases pending with _ | ⟨tok, rest⟩
  · cases h
  · cases h
    have := shCount_cons_le (pushTok tok) stack
    simp only [pmeasure, List.length_cons]
    omega

/-- The `while True` loop of `parse`: iterates `pstep` until the loop is
left.  Terminates because every iteration decreases `pmeasure`. -/
def parseLoop (tbl : List (String × Term)) (s : PState) :
    Except PyErr (List StackElem × Nat) :=
  match h : pstep tbl s with
  | .inl s' => parseLoop tbl s'
  | .inr r => r
termination_by pmeasure s
decreasing_by exact pstep_inl h

/-- A fuel-bounded runner for the same loop, used to evaluate concrete
parses by reduction (`parseLoop` itself is defined by well-founded recursion
and does not reduce definitionally). -/
def parseRun (tbl : List (String × Term)) :
    Nat → PState → Option (Except PyErr (List StackElem × Nat))
  | 0, _ => none
  | fuel + 1, s =>
    match pstep tbl s with
    | .inl s' => parseRun tbl fuel s'
    | .inr r => some r

theorem parseRun_correct {tbl : List (String × Term)} {fuel : Nat} {s : PState}
    {r : Except PyErr (List StackElem × Nat)}
    (h : parseRun tbl fuel s = some r) : parseLoop tbl s = r := by
  induction fuel generalizing s with
  | zero => simp [parseRun] at h
  | succ fuel ih =>
    rw [parseLoop]
    simp only [parseRun] at h
    split at h <;> rename_i heq
    · rw [heq]
      exact ih h
    · rw [heq]
      exact Option.some.inj h

/-- The acceptance check at the end of `parse`: exactly one stack element
remains and it is a `Term` or a `Definition`; otherwise
`SyntaxError('incomplete parse')`. -/
def parseAccept (stack : List StackElem) (c : Nat) :
    Except PyErr ((Term ⊕ Defn) × Nat) :=
  match stack with
  | [.term t] => .ok (.inl t, c)
  | [.defn d] => .ok (.inr d, c)
  | _ => .error (.syntaxError "incomplete parse")

/-- `parse` of `lc.py`.  The initial `lookahead = next(tokens)` escapes with
an uncaught `StopIteration` on an empty token sequence; otherwise the loop
runs and the final stack goes through the acceptance check. -/
def parse (toks : List Token) (tbl : List (String × Term)) (c : Nat) :
    Except PyErr ((Term ⊕ Defn) × Nat) :=
  match toks with
  | [] => .error .stopIteration
  | _ :: _ =>
    match parseLoop tbl ([], toks, c) with
    | .error e => .error e
    | .ok (stack, c') => parseAccept stack c'

/-! ## Round-trip machinery (claim C7)

The pretty-printed form of a well-formed term retokenizes to a fixed token
list (`tokensOf`), and the parser rebuilds from it exactly the term
`reparseU` describes: the same tree with variable ids renumbered in
left-to-right token order, every bound leaf fused with its innermost
enclosing binder of the same name. -/

/-- A character that can serve as a variable name in the grammar and
survive the round trip: not a control character, not a brace, not a digit
(which would lex as a numeral) and not whitespace (which the lexer
skips). -/
def validNameChar (ch : Char) : Bool :=
  !(isCtrlChar ch) && ch ≠ '\x7b' && ch ≠ '\x7d' && !ch.isDigit && !(pyIsSpace ch)

/-- A well-formed variable name: a single valid character (as produced by
the tokenizer). -/
def nameOk (s : String) : Bool :=
  match s.data with
  | [ch] => validNameChar ch
  | _ => false

/-- Innermost-first lookup in a binding environment. -/
def lookupEnv : List (String × Nat) → String → Option Nat
  | [], _ => none
  | (k, v) :: rest, nm => if k = nm then some v else lookupEnv rest nm

/-- Well-formedness of a term as the parser produces it, relative to the
list `env` of enclosing binders (innermost first) and a bound `c₀` above
every id in the term: every leaf is bound, carries the id of its innermost
enclosing binder of the same name, and names are single legal characters;
binder ids are below `c₀` and distinct from all enclosing binder ids. -/
def wfAux (c₀ : Nat) : Term → List (String × Nat) → Bool
  | .var v, env =>
    v.bound && (lookupEnv env v.name == some v.id) && nameOk v.name
  | .abs v body, env =>
    nameOk v.name && decide (v.id < c₀) && env.all (fun p => p.2 ≠ v.id) &&
      wfAux c₀ body ((v.name, v.id) :: env)
  | .app m n, env => wfAux c₀ m env && wfAux c₀ n env

/-- A closed well-formed term whose ids are all below the id counter `c₀`
(the invariant every term held by the program satisfies, the global counter
being monotone). -/
def Wf (t : Term) (c₀ : Nat) : Bool := wfAux c₀ t []

/-- The total function describing a *successful* binding pass (the result
`Term.bind` returns when it does not raise): unbound matching leaves are
fused, nested same-name abstractions stop the walk, bound leaves are left
alone (where `Term.bind` would raise on a directly reached bound matching
leaf, this function is never applied in that situation). -/
def bindF : Term → String → Nat → Term
  | .var v, nm, bid =>
    if v.name = nm && !v.bound then .var ⟨v.name, bid, true⟩ else .var v
  | .abs v body, nm, bid =>
    if v.name = nm then .abs v body else .abs v (bindF body nm bid)
  | .app m n, nm, bid => .app (bindF m nm bid) (bindF n nm bid)

/-- What parsing the printed form of `t` rebuilds, starting from id counter
`c`: the same tree with fresh ids in token order (binder ids taken at the
`λ`'s variable token, leaves at their occurrence), each abstraction running
the binding pass on its body. -/
def reparseU : Term → Nat → Term × Nat
  | .var v, c => (.var ⟨v.name, c, false⟩, c + 1)
  | .abs v body, c =>
    let p := reparseU body (c + 1)
    (.abs ⟨v.name, c, false⟩ (bindF p.1 v.name c), p.2)
  | .app m n, c =>
    let p := reparseU m c
    let q := reparseU n p.2
    (.app p.1 q.1, q.2)

/-- Removes every entry of the given name from an environment. -/
def dropName : List (String × Nat) → String → List (String × Nat)
  | [], _ => []
  | (k, v) :: rest, nm =>
    if k = nm then dropName rest nm else (k, v) :: dropName rest nm

/-- Applies pending outer binding passes, innermost first. -/
def bindAll : Term → List (String × Nat) → Term
  | t, [] => t
  | t, (nm, bid) :: rest => bindAll (bindF t nm bid) rest

/-- Every bound leaf lies behind an enclosing abstraction of the same name
(within the term, or among the given names): the reason a binding pass over
a parser-built term never reaches a bound matching leaf. -/
def shieldedAux : Term → List String → Bool
  | .var v, names => !v.bound || names.contains v.name
  | .abs v body, names => shieldedAux body (v.name :: names)
  | .app m n, names => shieldedAux m names && shieldedAux n names

/-- The token list of the printed form of `t`, ids assigned from `c` in
order. -/
def tokensOf : Term → Nat → List Token × Nat
  | .var v, c => ([.varTok ⟨v.name, c, false⟩], c + 1)
  | .abs v body, c =>
    let p := tokensOf body (c + 1)
    (.ctrl .lambdaTok :: .varTok ⟨v.name, c, false⟩ :: .ctrl .dot :: p.1, p.2)
  | .app m n, c =>
    let p := tokensOf m c
    let q := tokensOf n p.2
    ((match m with
      | .abs _ _ => .ctrl .lparen :: p.1 ++ [.ctrl .rparen]
      | _ => p.1) ++
     (match n with
      | .var _ => q.1
      | _ => .ctrl .lparen :: q.1 ++ [.ctrl .rparen]), q.2)

/-- A character of a printed well-formed term: a control character or a
valid name character (never whitespace, a digit or a brace). -/
def simpleChar (ch : Char) : Bool := isCtrlChar ch || validNameChar ch

/-- The tokens of a list of simple characters: each control character one
control token, every other character a fresh variable. -/
def charsTokens : List Char → Nat → List Token × Nat
  | [], c => ([], c)
  | ch :: rest, c =>
    if isCtrlChar ch then
      let p := charsTokens rest c
      (.ctrl (ctrlOf ch) :: p.1, p.2)
    else
      let p := charsTokens rest (c + 1)
      (.varTok ⟨String.singleton ch, c, false⟩ :: p.1, p.2)

/-- The stack shapes on top of which the parser starts reading a fresh
subterm of a printed well-formed input: the empty stack, an open
parenthesis (possibly over the function term it will be applied to), or an
open `λ x .` frame. -/
inductive GoodCtx : List StackElem → Prop where
  | nil : GoodCtx []
  | paren {st : List StackElem} : GoodCtx st → GoodCtx (.ctrl .lparen :: st)
  | parenArg {st : List StackElem} {t : Term} :
      GoodCtx st → GoodCtx (.ctrl .lparen :: .term t :: st)
  | lamdot {st : List StackElem} {v : PyVar} :
      GoodCtx st →
      GoodCtx (.ctrl .dot :: .term (.var v) :: .ctrl .lambdaTok :: st)

/-- The pending input while the argument side of an application is being
read: the argument's tokens (parenthesized unless it is a variable)
followed by the rest of the input. -/
def argTokens (n : Term) (c : Nat) (rest : List Token) : List Token :=
  match n with
  | .var _ => (tokensOf n c).1 ++ rest
  | _ => .ctrl .lparen :: ((tokensOf n c).1 ++ (.ctrl .rparen :: rest))

/-- The function side of a printed application: parenthesized when it is an
abstraction. -/
def funRepr (m : Term) : String :=
  match m with
  | .abs _ _ => "(" ++ m.lrepr ++ ")"
  | _ => m.lrepr

/-- The argument side of a printed application: bare for a variable,
parenthesized otherwise. -/
def argRepr (n : Term) : String :=
  match n with
  | .var _ => n.lrepr
  | _ => "(" ++ n.lrepr ++ ")"

/-- The tokens of the function side of a printed application. -/
def funToks (m : Term) (c : Nat) : List Token :=
  match m with
  | .abs _ _ => .ctrl .lparen :: (tokensOf m c).1 ++ [.ctrl .rparen]
  | _ => (tokensOf m c).1

/-- The tokens of the argument side of a printed application. -/
def argToks (n : Term) (c : Nat) : List Token :=
  match n with
  | .var _ => (tokensOf n c).1
  | _ => .ctrl .lparen :: (tokensOf n c).1 ++ [.ctrl .rparen]

/-- The last term of the (fuel-truncated) reduction sequence, i.e. the term
on which `show_reduction` runs its recognizers: iterates `reductionStep`
until exhaustion. -/
def reduceToEnd : Nat → Term → Term
  | 0, t => t
  | fuel + 1, t =>
    match reductionStep t with
    | none => t
    | some t' => reduceToEnd fuel t'

/-- A single unfolding of the parse loop on a continuing step. -/
theorem parseLoop_inl {tbl : List (String × Term)} {s s' : PState}
    (h : pstep tbl s = .inl s') : parseLoop tbl s = parseLoop tbl s' := by
  rw [parseLoop]
  split <;> rename_i heq
  · rw [h] at heq
    cases heq
    rfl
  · rw [h] at heq
    cases heq

/-- A single unfolding of the parse loop on a halting step. -/
theorem parseLoop_inr {tbl : List (String × Term)} {s : PState}
    {r : Except PyErr (List StackElem × Nat)}
    (h : pstep tbl s = .inr r) : parseLoop tbl s = r := by
  rw [parseLoop]
  split <;> rename_i heq
  · rw [h] at heq
    cases heq
  · rw [h] at heq
    cases heq
    rfl

section RoundTrip

theorem stringDataEq {s : String} {cs : List Char} (h : s.data = cs) :
    s = ⟨cs⟩ := by
  cases s
  cases h
  rfl

theorem isCtrlChar_not_space {ch : Char} (h : isCtrlChar ch = true) :
    pyIsSpace ch = false := by
  simp only [isCtrlChar, Bool.or_eq_true, decide_eq_true_eq] at h
  rcases h with ((((h | h) | h) | h) | h) <;> subst h <;> rfl

theorem simpleChar_not_space {ch : Char} (h : simpleChar ch = true) :
    pyIsSpace ch = false := by
  simp only [simpleChar, Bool.or_eq_true] at h
  rcases h with h | h
  · exact isCtrlChar_not_space h
  · simp only [validNameChar, Bool.and_eq_true, Bool.not_eq_true'] at h
    exact h.2

theorem dropWhile_space_eq_self {cs : List Char}
    (h : ∀ ch ∈ cs, simpleChar ch = true) :
    cs.dropWhile (fun c => pyIsSpace c) = cs := by
  cases cs with
  | nil => rfl
  | cons ch rest =>
    rw [List.dropWhile_cons]
    simp [simpleChar_not_space (h ch (by simp))]

theorem matchTok_ctrl {ch : Char} {rest : List Char}
    (hc : isCtrlChar ch = true) (h : ∀ d ∈ rest, simpleChar d = true) :
    matchTok (ch :: rest) = some (.ctrl (ctrlOf ch), rest) := by
  have h1 : (ch :: rest).dropWhile (fun c => pyIsSpace c) = ch :: rest := by
    rw [List.dropWhile_cons]
    simp [isCtrlChar_not_space hc]
  have h2 : tokAt (ch :: rest) = some (.ctrl (ctrlOf ch), rest) := by
    simp [tokAt, hc]
  simp only [matchTok]
  rw [h1, h2]
  dsimp only
  rw [dropWhile_space_eq_self h]

theorem matchTok_name {ch : Char} {rest : List Char}
    (hc : validNameChar ch = true) (h : ∀ d ∈ rest, simpleChar d = true) :
    matchTok (ch :: rest) = some (.variableChar ch, rest) := by
  obtain ⟨⟨⟨⟨hctrl, hlb⟩, hrb⟩, hdig⟩, hws⟩ := by
    simpa only [validNameChar, Bool.and_eq_true, Bool.not_eq_true',
      decide_eq_true_eq] using hc
  have h1 : (ch :: rest).dropWhile (fun c => pyIsSpace c) = ch :: rest := by
    rw [List.dropWhile_cons]
    simp [hws]
  have h2 : tokAt (ch :: rest) = some (.variableChar ch, rest) := by
    simp [tokAt, hctrl, hlb, hrb, hdig]
  simp only [matchTok]
  rw [h1, h2]
  dsimp only
  rw [dropWhile_space_eq_self h]

theorem tokenizeChars_simple :
    ∀ (cs : List Char), (∀ ch ∈ cs, simpleChar ch = true) → ∀ (c : Nat),
      tokenizeChars cs c = .ok (charsTokens cs c) := by
  intro cs
  induction cs with
  | nil => intro _ c; rfl
  | cons ch rest ih =>
    intro h c
    have hch : simpleChar ch = true := h ch (by simp)
    have hrest : ∀ d ∈ rest, simpleChar d = true := fun d hd => h d (by simp [hd])
    rw [tokenizeChars_cons]
    rcases Bool.or_eq_true_iff.mp (by simpa [simpleChar] using hch) with hc | hn
    · rw [matchTok_ctrl hc hrest]
      dsimp only
      simp only [mkToken]
      rw [ih hrest c]
      simp [charsTokens, hc]
    · have hc' : isCtrlChar ch = false := by
        simp only [validNameChar, Bool.and_eq_true, Bool.not_eq_true'] at hn
        exact hn.1.1.1.1
      rw [matchTok_name hn hrest]
      dsimp only
      simp only [mkToken]
      rw [ih hrest (c + 1)]
      simp [charsTokens, hc']

theorem charsTokens_append :
    ∀ (l1 l2 : List Char) (c : Nat),
      charsTokens (l1 ++ l2) c =
        ((charsTokens l1 c).1 ++ (charsTokens l2 (charsTokens l1 c).2).1,
          (charsTokens l2 (charsTokens l1 c).2).2) := by
  intro l1
  induction l1 with
  | nil => intro l2 c; rfl
  | cons ch rest ih =>
    intro l2 c
    by_cases hc : isCtrlChar ch = true
    · simp [charsTokens, hc, ih]
    · simp [charsTokens, hc, ih]

theorem nameOk_spec {s : String} (h : nameOk s = true) :
    ∃ ch, s.data = [ch] ∧ validNameChar ch = true := by
  rcases hd : s.data with _ | ⟨c1, _ | ⟨c2, tl⟩⟩ <;> simp only [nameOk, hd] at h
  · exact absurd h (by decide)
  · exact ⟨c1, rfl, h⟩
  · exact absurd h (by decide)

theorem mem_wrap {s : String} {ch : Char} (h : ch ∈ ("(" ++ s ++ ")").data) :
    ch = '(' ∨ ch = ')' ∨ ch ∈ s.data := by
  simp only [String.data_append, List.mem_append, List.mem_singleton,
    show ("(" : String).data = ['('] from rfl,
    show (")" : String).data = [')'] from rfl] at h
  rcases h with (h | h) | h
  · exact Or.inl h
  · exact Or.inr (Or.inr h)
  · exact Or.inr (Or.inl h)

theorem lrepr_chars_simple (c₀ : Nat) :
    ∀ (t : Term) (env : List (String × Nat)), wfAux c₀ t env = true →
      ∀ ch ∈ (Term.lrepr t).data, simpleChar ch = true := by
  intro t
  induction t with
  | var v =>
    intro env hwf ch hch
    simp only [wfAux, Bool.and_eq_true] at hwf
    obtain ⟨-, hname⟩ := hwf
    obtain ⟨c1, hd, hv⟩ := nameOk_spec hname
    simp only [Term.lrepr, hd, List.mem_singleton] at hch
    subst hch
    simp [simpleChar, hv]
  | abs v body ih =>
    intro env hwf ch hch
    simp only [wfAux, Bool.and_eq_true] at hwf
    obtain ⟨⟨⟨hname, -⟩, -⟩, hbody⟩ := hwf
    obtain ⟨c1, hd, hv⟩ := nameOk_spec hname
    simp only [Term.lrepr, String.data_append, List.mem_append, hd,
      show ("λ" : String).data = ['λ'] from rfl,
      show ("." : String).data = ['.'] from rfl,
      List.mem_singleton] at hch
    rcases hch with ((hch | hch) | hch) | hch
    · subst hch; decide
    · subst hch; simp [simpleChar, hv]
    · subst hch; decide
    · exact ih _ hbody ch hch
  | app m n ihm ihn =>
    intro env hwf ch hch
    simp only [wfAux, Bool.and_eq_true] at hwf
    obtain ⟨hm, hn⟩ := hwf
    have he : Term.lrepr (Term.app m n)
        = (match m with
           | Term.abs _ _ => "(" ++ Term.lrepr m ++ ")"
           | _ => Term.lrepr m)
          ++ (match n with
              | Term.var _ => Term.lrepr n
              | _ => "(" ++ Term.lrepr n ++ ")") := by
      cases m <;> cases n <;> rfl
    rw [he, String.data_append] at hch
    rcases List.mem_append.mp hch with h1 | h1
    · have h2 : ch = '(' ∨ ch = ')' ∨ ch ∈ (Term.lrepr m).data := by
        cases m with
        | var w => exact Or.inr (Or.inr h1)
        | abs w b => exact mem_wrap h1
        | app a b => exact Or.inr (Or.inr h1)
      rcases h2 with h2 | h2 | h2
      · subst h2; decide
      · subst h2; decide
      · exact ihm _ hm ch h2
    · have h2 : ch = '(' ∨ ch = ')' ∨ ch ∈ (Term.lrepr n).data := by
        cases n with
        | var w => exact Or.inr (Or.inr h1)
        | abs w b => exact mem_wrap h1
        | app a b => exact mem_wrap h1
      rcases h2 with h2 | h2 | h2
      · subst h2; decide
      · subst h2; decide
      · exact ihn _ hn ch h2


/-- A binding pass over a shielded term keeps it shielded, provided the
bound name is among the shielding names. -/
theorem shieldedAux_bindF :
    ∀ (t : Term) (names : List String) (nm : String) (bid : Nat),
      shieldedAux t names = true → names.contains nm = true →
      shieldedAux (bindF t nm bid) names = true := by
  intro t
  induction t with
  | var v =>
    intro names nm bid hs hc
    simp only [bindF]
    split
    · rename_i h
      simp only [Bool.and_eq_true, decide_eq_true_eq, Bool.not_eq_true'] at h
      show (!true || names.contains v.name) = true
      rw [h.1]
      simpa using hc
    · exact hs
  | abs w body ih =>
    intro names nm bid hs hc
    simp only [bindF]
    split
    · exact hs
    · simp only [shieldedAux] at hs ⊢
      exact ih _ _ _ hs (by simp only [List.contains_cons, hc, Bool.or_true])
  | app m n ihm ihn =>
    intro names nm bid hs hc
    simp only [bindF, shieldedAux, Bool.and_eq_true] at hs ⊢
    exact ⟨ihm _ _ _ hs.1 hc, ihn _ _ _ hs.2 hc⟩

/-- Every term the parser rebuilds is shielded: its bound leaves only arise
from binding passes of enclosing abstractions of the same name. -/
theorem reparseU_shielded :
    ∀ (t : Term) (c : Nat) (names : List String),
      shieldedAux (reparseU t c).1 names = true := by
  intro t
  induction t with
  | var v => intro c names; rfl
  | abs v body ih =>
    intro c names
    simp only [reparseU, shieldedAux]
    exact shieldedAux_bindF _ _ _ _ (ih _ _)
      (by simp only [List.contains_cons, beq_self_eq_true, Bool.true_or])
  | app m n ihm ihn =>
    intro c names
    simp only [reparseU, shieldedAux, Bool.and_eq_true]
    exact ⟨ihm _ _, ihn _ _⟩

/-- On a shielded term whose shielding names avoid the bound name, the
binding pass never reaches a bound matching leaf, so `Term.bind` succeeds
and agrees with the total description `bindF`. -/
theorem bind_shielded :
    ∀ (t : Term) (names : List String) (v : PyVar),
      shieldedAux t names = true → names.contains v.name = false →
      Term.bind t v = .ok (bindF t v.name v.id) := by
  intro t
  induction t with
  | var w =>
    intro names v hs hc
    simp only [shieldedAux, Bool.or_eq_true, Bool.not_eq_true'] at hs
    by_cases h1 : w.name = v.name
    · have hb : w.bound = false := by
        rcases hs with hs | hs
        · exact hs
        · rw [h1] at hs
          rw [hs] at hc
          cases hc
      simp [Term.bind, bindF, h1, hb]
    · simp [Term.bind, bindF, h1]
  | abs w body ih =>
    intro names v hs hc
    by_cases h1 : w.name = v.name
    · simp [Term.bind, bindF, h1]
    · have hs' : shieldedAux body (w.name :: names) = true := hs
      have hc' : (w.name :: names).contains v.name = false := by
        simp only [List.contains_cons, hc, Bool.or_false]
        exact beq_eq_false_iff_ne.mpr (Ne.symm h1)
      simp only [Term.bind, if_neg h1]
      rw [ih _ _ hs' hc']
      simp only [bindF, if_neg h1]
      rfl
  | app m n ihm ihn =>
    intro names v hs hc
    simp only [shieldedAux, Bool.and_eq_true] at hs
    simp only [Term.bind, ihm _ _ hs.1 hc, ihn _ _ hs.2 hc]
    rfl

/-- Pending binds leave an already-bound leaf alone. -/
theorem bindAll_var_bound :
    ∀ (l : List (String × Nat)) (w : PyVar), w.bound = true →
      bindAll (.var w) l = .var w := by
  intro l
  induction l with
  | nil => intro w hb; rfl
  | cons p rest ih =>
    intro w hb
    obtain ⟨nm, bid⟩ := p
    simp only [bindAll, bindF, hb]
    simp only [Bool.not_true, Bool.and_false, Bool.false_eq_true, if_false]
    exact ih w hb

/-- An unbound leaf is bound by the innermost pending bind of its name. -/
theorem bindAll_var_lookup :
    ∀ (l : List (String × Nat)) (nm : String) (i j : Nat),
      lookupEnv l nm = some j →
      bindAll (.var ⟨nm, i, false⟩) l = .var ⟨nm, j, true⟩ := by
  intro l
  induction l with
  | nil => intro nm i j h; cases h
  | cons p rest ih =>
    intro nm i j h
    obtain ⟨k, b⟩ := p
    by_cases hk : k = nm
    · subst hk
      simp only [lookupEnv, if_pos rfl] at h
      cases h
      simp only [bindAll]
      have hf : bindF (Term.var ⟨k, i, false⟩) k j = Term.var ⟨k, j, true⟩ := by
        simp [bindF]
      rw [hf]
      exact bindAll_var_bound rest _ rfl
    · simp only [lookupEnv, if_neg hk] at h
      simp only [bindAll]
      have hf : bindF (Term.var ⟨nm, i, false⟩) k b = Term.var ⟨nm, i, false⟩ := by
        simp [bindF, Ne.symm hk]
      rw [hf]
      exact ih nm i j h

/-- Pending binds stop at a same-named abstraction and descend past the
others. -/
theorem bindAll_abs :
    ∀ (l : List (String × Nat)) (v : PyVar) (body : Term),
      bindAll (.abs v body) l = .abs v (bindAll body (dropName l v.name)) := by
  intro l
  induction l with
  | nil => intro v body; rfl
  | cons p rest ih =>
    intro v body
    obtain ⟨k, b⟩ := p
    by_cases hk : k = v.name
    · simp only [bindAll, dropName, if_pos hk]
      rw [show bindF (Term.abs v body) k b = Term.abs v body from by
        simp [bindF, hk.symm]]
      exact ih v body
    · simp only [bindAll, dropName, if_neg hk]
      rw [show bindF (Term.abs v body) k b = Term.abs v (bindF body k b) from
        if_neg (fun h : v.name = k => hk h.symm)]
      exact ih v (bindF body k b)

/-- Pending binds distribute over an application. -/
theorem bindAll_app :
    ∀ (l : List (String × Nat)) (m n : Term),
      bindAll (.app m n) l = .app (bindAll m l) (bindAll n l) := by
  intro l
  induction l with
  | nil => intro m n; rfl
  | cons p rest ih =>
    intro m n
    obtain ⟨k, b⟩ := p
    simp only [bindAll, bindF]
    exact ih _ _

/-- The id counter never decreases across `reparseU`. -/
theorem reparseU_counter_le : ∀ (t : Term) (c : Nat), c ≤ (reparseU t c).2 := by
  intro t
  induction t with
  | var v => intro c; exact Nat.le_succ c
  | abs v body ih => intro c; exact le_trans (Nat.le_succ c) (ih (c + 1))
  | app m n ihm ihn => intro c; exact le_trans (ihm c) (ihn (reparseU m c).2)

/-- Dropping entries of a different name does not change a lookup. -/
theorem lookupEnv_dropName_ne :
    ∀ (l : List (String × Nat)) (d nm : String), nm ≠ d →
      lookupEnv (dropName l d) nm = lookupEnv l nm := by
  intro l
  induction l with
  | nil => intro d nm h; rfl
  | cons p rest ih =>
    intro d nm h
    obtain ⟨k, v⟩ := p
    by_cases hk : k = d
    · subst hk
      have hd : dropName ((k, v) :: rest) k = dropName rest k := by
        conv_lhs => rw [dropName]
        exact if_pos rfl
      rw [hd, ih _ _ h]
      simp only [lookupEnv, if_neg (fun he : k = nm => h he.symm)]
    · simp only [dropName, if_neg hk, lookupEnv]
      by_cases hknm : k = nm
      · simp [hknm]
      · simp [hknm, ih _ _ h]

/-- A successful lookup comes from an entry of the environment. -/
theorem lookupEnv_mem :
    ∀ (l : List (String × Nat)) (nm : String) (i : Nat),
      lookupEnv l nm = some i → (nm, i) ∈ l := by
  intro l
  induction l with
  | nil => intro nm i h; cases h
  | cons p rest ih =>
    intro nm i h
    obtain ⟨k, v⟩ := p
    simp only [lookupEnv] at h
    split at h
    · rename_i hk
      cases h
      subst hk
      exact List.mem_cons_self _ _
    · exact List.mem_cons_of_mem _ (ih _ _ h)

/-- The correspondence between the binding environment of the original term
and the pending binds of its reparse, as recorded in an `alpha_eq` renaming
table: each enclosing binder of the original maps to the (strictly larger)
fresh id of the corresponding rebuilt binder. -/
def EnvRel (env l : List (String × Nat)) (renames : Nat → Option Nat) : Prop :=
  ∀ nm i, lookupEnv env nm = some i →
    ∃ j, lookupEnv l nm = some j ∧ renames i = some j ∧ i < j

/-- A well-formed term is `alpha_eq` to its reparse (with pending outer
binds), under any renaming table related to the environments. -/
theorem alpha_reparse :
    ∀ (t : Term) (env l : List (String × Nat)) (renames : Nat → Option Nat)
      (c₀ c' : Nat), wfAux c₀ t env = true → c₀ ≤ c' → EnvRel env l renames →
      Term.alpha_eq t (bindAll (reparseU t c').1 l) renames = true := by
  intro t
  induction t with
  | var v =>
    intro env l renames c₀ c' hwf hc hrel
    simp only [wfAux, Bool.and_eq_true, beq_iff_eq] at hwf
    obtain ⟨⟨hb, hlook⟩, -⟩ := hwf
    obtain ⟨j, hl, hr, hij⟩ := hrel v.name v.id hlook
    rw [show (reparseU (.var v) c').1 = Term.var ⟨v.name, c', false⟩ from rfl]
    rw [bindAll_var_lookup l v.name c' j hl]
    simp only [Term.alpha_eq]
    rw [Nat.min_eq_left (le_of_lt hij), Nat.max_eq_right (le_of_lt hij)]
    simp [hr]
  | abs v body ih =>
    intro env l renames c₀ c' hwf hc hrel
    simp only [wfAux, Bool.and_eq_true, decide_eq_true_eq] at hwf
    obtain ⟨⟨⟨hname, hid⟩, hall⟩, hbody⟩ := hwf
    have hvc : v.id < c' := lt_of_lt_of_le hid hc
    rw [show (reparseU (.abs v body) c').1
        = Term.abs ⟨v.name, c', false⟩
            (bindF (reparseU body (c' + 1)).1 v.name c') from rfl]
    rw [bindAll_abs]
    rw [show bindAll (bindF (reparseU body (c' + 1)).1 v.name c')
          (dropName l v.name)
        = bindAll (reparseU body (c' + 1)).1
            ((v.name, c') :: dropName l v.name) from rfl]
    simp only [Term.alpha_eq]
    apply ih ((v.name, v.id) :: env) ((v.name, c') :: dropName l v.name) _ c₀
      (c' + 1) hbody (le_trans hc (Nat.le_succ c'))
    intro nm i hlook
    simp only [lookupEnv] at hlook
    by_cases hnm : v.name = nm
    · rw [if_pos hnm] at hlook
      cases hlook
      refine ⟨c', by simp [lookupEnv, hnm], ?_, hvc⟩
      show (if v.id = min v.id c' then some (max v.id c') else renames v.id)
          = some c'
      rw [Nat.min_eq_left (le_of_lt hvc), Nat.max_eq_right (le_of_lt hvc)]
      simp
    · rw [if_neg hnm] at hlook
      obtain ⟨j, hl, hr, hij⟩ := hrel nm i hlook
      have hine : i ≠ v.id := by
        have h2 := List.all_eq_true.mp hall _ (lookupEnv_mem env nm i hlook)
        simpa using h2
      refine ⟨j, ?_, ?_, hij⟩
      · simp only [lookupEnv, if_neg hnm]
        rw [lookupEnv_dropName_ne l v.name nm (fun he => hnm he.symm)]
        exact hl
      · show (if i = min v.id c' then some (max v.id c') else renames i)
            = some j
        rw [Nat.min_eq_left (le_of_lt hvc), if_neg hine]
        exact hr
  | app m n ihm ihn =>
    intro env l renames c₀ c' hwf hc hrel
    simp only [wfAux, Bool.and_eq_true] at hwf
    rw [show (reparseU (.app m n) c').1
        = Term.app (reparseU m c').1 (reparseU n (reparseU m c').2).1 from rfl]
    rw [bindAll_app]
    simp only [Term.alpha_eq, Bool.and_eq_true]
    exact ⟨ihm _ _ _ c₀ c' hwf.1 hc hrel,
      ihn _ _ _ c₀ (reparseU m c').2 hwf.2
        (le_trans hc (reparseU_counter_le m c')) hrel⟩

/-- A closed well-formed term is alpha-equivalent to its reparse under the
empty renaming table. -/
theorem alpha_reparse_closed (t : Term) (c₀ c' : Nat)
    (hwf : Wf t c₀ = true) (hc : c₀ ≤ c') :
    Term.alpha_eq t (reparseU t c').1 (fun k => none) = true := by
  have h := alpha_reparse t [] [] (fun k => none) c₀ c' hwf hc
    (fun nm i hlook => by cases hlook)
  rwa [show bindAll (reparseU t c').1 [] = (reparseU t c').1 from rfl] at h


/-- On a context stack (no term on top, no pending reduction), a variable
token is shifted. -/
theorem pstep_shift_var_good {tbl : List (String × Term)} {st : List StackElem}
    {v : PyVar} {toks : List Token} {cc : Nat} (hg : GoodCtx st) :
    pstep tbl (st, .varTok v :: toks, cc)
      = .inl (.term (.var v) :: st, toks, cc) := by
  cases hg <;> rfl

/-- On a context stack, a `λ` token is shifted. -/
theorem pstep_shift_lambda_good {tbl : List (String × Term)}
    {st : List StackElem} {toks : List Token} {cc : Nat} (hg : GoodCtx st) :
    pstep tbl (st, .ctrl .lambdaTok :: toks, cc)
      = .inl (.ctrl .lambdaTok :: st, toks, cc) := by
  cases hg <;> rfl

/-- On a context stack, a `(` token is shifted. -/
theorem pstep_shift_lparen_good {tbl : List (String × Term)}
    {st : List StackElem} {toks : List Token} {cc : Nat} (hg : GoodCtx st) :
    pstep tbl (st, .ctrl .lparen :: toks, cc)
      = .inl (.ctrl .lparen :: st, toks, cc) := by
  cases hg <;> rfl

/-- Over a completed term on a context stack, a variable token is shifted
(the abstraction reduction stays gated: the lookahead is not `)`). -/
theorem pstep_shift_var_over {tbl : List (String × Term)} {M : Term}
    {st : List StackElem} {v : PyVar} {toks : List Token} {cc : Nat}
    (hg : GoodCtx st) :
    pstep tbl (.term M :: st, .varTok v :: toks, cc)
      = .inl (.term (.var v) :: .term M :: st, toks, cc) := by
  cases hg <;> rfl

/-- Over a completed term on a context stack, a `(` token is shifted. -/
theorem pstep_shift_lparen_over {tbl : List (String × Term)} {M : Term}
    {st : List StackElem} {toks : List Token} {cc : Nat} (hg : GoodCtx st) :
    pstep tbl (.term M :: st, .ctrl .lparen :: toks, cc)
      = .inl (.ctrl .lparen :: .term M :: st, toks, cc) := by
  cases hg <;> rfl

/-- After `λ` the binder variable token is shifted. -/
theorem pstep_shift_after_lambda {tbl : List (String × Term)}
    {st : List StackElem} {v : PyVar} {toks : List Token} {cc : Nat} :
    pstep tbl (.ctrl .lambdaTok :: st, .varTok v :: toks, cc)
      = .inl (.term (.var v) :: .ctrl .lambdaTok :: st, toks, cc) := rfl

/-- After `λ x` the dot is shifted. -/
theorem pstep_shift_dot {tbl : List (String × Term)} {st : List StackElem}
    {v : PyVar} {toks : List Token} {cc : Nat} :
    pstep tbl (.term (.var v) :: .ctrl .lambdaTok :: st, .ctrl .dot :: toks, cc)
      = .inl (.ctrl .dot :: .term (.var v) :: .ctrl .lambdaTok :: st, toks, cc)
      := rfl

/-- A closing parenthesis over `( Term` is shifted (the paren reduction
needs it on the stack first). -/
theorem pstep_shift_closeparen {tbl : List (String × Term)} {M : Term}
    {st : List StackElem} {toks : List Token} {cc : Nat} :
    pstep tbl (.term M :: .ctrl .lparen :: st, .ctrl .rparen :: toks, cc)
      = .inl (.ctrl .rparen :: .term M :: .ctrl .lparen :: st, toks, cc) := rfl

/-- The `Term -> ( Term )` reduction. -/
theorem pstep_parenRed {tbl : List (String × Term)} {M : Term}
    {st : List StackElem} {toks : List Token} {cc : Nat} :
    pstep tbl (.ctrl .rparen :: .term M :: .ctrl .lparen :: st, toks, cc)
      = .inl (.term M :: st, toks, cc) := rfl

/-- The `Application -> Term Term` reduction. -/
theorem pstep_appRed {tbl : List (String × Term)} {M N : Term}
    {st : List StackElem} {toks : List Token} {cc : Nat} :
    pstep tbl (.term N :: .term M :: st, toks, cc)
      = .inl (.term (.app M N) :: st, toks, cc) := rfl

/-- The loop leaves with the final stack once a single term remains and the
input is exhausted. -/
theorem pstep_halt {tbl : List (String × Term)} {T : Term} {cc : Nat} :
    pstep tbl ([.term T], [], cc) = .inr (.ok ([.term T], cc)) := rfl

/-- The `Abstraction -> λ Variable . Term` reduction, when the lookahead
gate is open and the binder construction succeeds. -/
theorem pstep_absRed {tbl : List (String × Term)} {B a : Term} {w : PyVar}
    {st : List StackElem} {rest : List Token} {cc : Nat}
    (hg : absGate rest = true) (hbind : mkAbs w B = .ok a) :
    pstep tbl
        (.term B :: .ctrl .dot :: .term (.var w) :: .ctrl .lambdaTok :: st,
          rest, cc)
      = .inl (.term a :: st, rest, cc) := by
  simp only [pstep]
  dsimp only [tryParenRed, tryAppRed, tryAbsRed]
  rw [if_pos hg]
  dsimp only
  rw [hbind]

/-- Both descriptions of the reparse distribute the id counter identically
across the token stream. -/
theorem tokensOf_snd :
    ∀ (t : Term) (c : Nat), (tokensOf t c).2 = (reparseU t c).2 := by
  intro t
  induction t with
  | var v => intro c; rfl
  | abs v body ih => intro c; exact ih (c + 1)
  | app m n ihm ihn =>
    intro c
    show (tokensOf n (tokensOf m c).2).2 = (reparseU n (reparseU m c).2).2
    rw [ihm c]
    exact ihn _

/-- An append whose left part is a cons is a cons. -/
theorem consOfAppend {α : Type} {l l2 : List α} {tok : α} {toks : List α}
    (h : l = tok :: toks) : ∃ tok' toks', l ++ l2 = tok' :: toks' :=
  ⟨tok, toks ++ l2, by rw [h]; rfl⟩

/-- A term always prints to at least one token. -/
theorem tokensOf_cons :
    ∀ (t : Term) (c : Nat), ∃ tok toks, (tokensOf t c).1 = tok :: toks := by
  intro t
  induction t with
  | var v => intro c; exact ⟨_, _, rfl⟩
  | abs v body ih => intro c; exact ⟨_, _, rfl⟩
  | app m n ihm ihn =>
    intro c
    cases m with
    | var w => exact ⟨_, _, rfl⟩
    | abs w b => exact ⟨_, _, rfl⟩
    | app a b =>
      obtain ⟨tok, toks, h⟩ := ihm c
      exact consOfAppend h

/-- The simulation: from any context stack, feeding the token stream of a
printed subterm runs the parser to the state where the rebuilt subterm sits
on the stack and the rest of the input is untouched (when the subterm is an
abstraction its reduction needs the lookahead gate open on the rest). -/
theorem parse_sim (tbl : List (String × Term)) :
    ∀ (t : Term) (st : List StackElem) (rest : List Token) (c cc : Nat),
      GoodCtx st → (∀ v b, t = Term.abs v b → absGate rest = true) →
      parseLoop tbl (st, (tokensOf t c).1 ++ rest, cc)
        = parseLoop tbl (.term (reparseU t c).1 :: st, rest, cc) := by
  intro t
  induction t with
  | var v =>
    intro st rest c cc hg _
    exact parseLoop_inl (pstep_shift_var_good hg)
  | abs v body ih =>
    intro st rest c cc hg habs
    have hgrest : absGate rest = true := habs v body rfl
    have hsplit : (tokensOf (Term.abs v body) c).1 ++ rest
        = Token.ctrl .lambdaTok :: Token.varTok ⟨v.name, c, false⟩ ::
          Token.ctrl .dot :: ((tokensOf body (c + 1)).1 ++ rest) := by
      simp [tokensOf]
    rw [hsplit]
    rw [parseLoop_inl (pstep_shift_lambda_good hg)]
    rw [parseLoop_inl pstep_shift_after_lambda]
    rw [parseLoop_inl pstep_shift_dot]
    rw [ih (.ctrl .dot :: .term (.var ⟨v.name, c, false⟩) :: .ctrl .lambdaTok :: st)
      rest (c + 1) cc (GoodCtx.lamdot hg) (fun _ _ _ => hgrest)]
    have hbind : Term.bind (reparseU body (c + 1)).1 ⟨v.name, c, false⟩
        = .ok (bindF (reparseU body (c + 1)).1 v.name c) :=
      bind_shielded _ [] _ (reparseU_shielded body (c + 1) []) rfl
    have hmk : mkAbs ⟨v.name, c, false⟩ (reparseU body (c + 1)).1
        = .ok (.abs ⟨v.name, c, false⟩
            (bindF (reparseU body (c + 1)).1 v.name c)) := by
      simp only [mkAbs, hbind]
      rfl
    rw [parseLoop_inl (pstep_absRed hgrest hmk)]
    rfl
  | app m n ihm ihn =>
    intro st rest c cc hg habs
    have hc2 : (tokensOf m c).2 = (reparseU m c).2 := tokensOf_snd m c
    have stage1 : parseLoop tbl (st, (tokensOf (Term.app m n) c).1 ++ rest, cc)
        = parseLoop tbl (.term (reparseU m c).1 :: st,
            argTokens n (reparseU m c).2 rest, cc) := by
      cases m with
      | var w =>
        have e : (tokensOf (Term.app (Term.var w) n) c).1 ++ rest
            = (tokensOf (Term.var w) c).1 ++
              argTokens n (reparseU (Term.var w) c).2 rest := by
          cases n <;> simp [tokensOf, argTokens, List.append_assoc, ← hc2]
        rw [e, ihm st _ c cc hg (fun _ _ h => by cases h)]
      | app a b =>
        have e : (tokensOf (Term.app (Term.app a b) n) c).1 ++ rest
            = (tokensOf (Term.app a b) c).1 ++
              argTokens n (reparseU (Term.app a b) c).2 rest := by
          cases n <;> simp [tokensOf, argTokens, List.append_assoc, ← hc2]
        rw [e, ihm st _ c cc hg (fun _ _ h => by cases h)]
      | abs w b =>
        have e : (tokensOf (Term.app (Term.abs w b) n) c).1 ++ rest
            = Token.ctrl .lparen :: ((tokensOf (Term.abs w b) c).1 ++
              (Token.ctrl .rparen ::
                argTokens n (reparseU (Term.abs w b) c).2 rest)) := by
          cases n <;> simp [tokensOf, argTokens, List.append_assoc, ← hc2]
        rw [e]
        rw [parseLoop_inl (pstep_shift_lparen_good hg)]
        rw [ihm (.ctrl .lparen :: st)
          (Token.ctrl .rparen ::
            argTokens n (reparseU (Term.abs w b) c).2 rest) c cc
          (GoodCtx.paren hg) (fun _ _ _ => rfl)]
        rw [parseLoop_inl pstep_shift_closeparen]
        rw [parseLoop_inl pstep_parenRed]
    rw [stage1]
    cases n with
    | var w =>
      show parseLoop tbl (.term (reparseU m c).1 :: st,
          Token.varTok ⟨w.name, (reparseU m c).2, false⟩ :: rest, cc)
        = parseLoop tbl
            (.term (reparseU (Term.app m (Term.var w)) c).1 :: st, rest, cc)
      rw [parseLoop_inl (pstep_shift_var_over hg)]
      exact parseLoop_inl pstep_appRed
    | abs w b =>
      show parseLoop tbl (.term (reparseU m c).1 :: st,
          Token.ctrl .lparen :: ((tokensOf (Term.abs w b) (reparseU m c).2).1
            ++ (Token.ctrl .rparen :: rest)), cc)
        = parseLoop tbl
            (.term (reparseU (Term.app m (Term.abs w b)) c).1 :: st, rest, cc)
      rw [parseLoop_inl (pstep_shift_lparen_over hg)]
      rw [ihn (.ctrl .lparen :: .term (reparseU m c).1 :: st)
        (.ctrl .rparen :: rest) (reparseU m c).2 cc (GoodCtx.parenArg hg)
        (fun _ _ _ => rfl)]
      rw [parseLoop_inl pstep_shift_closeparen]
      rw [parseLoop_inl pstep_parenRed]
      exact parseLoop_inl pstep_appRed
    | app a b =>
      show parseLoop tbl (.term (reparseU m c).1 :: st,
          Token.ctrl .lparen :: ((tokensOf (Term.app a b) (reparseU m c).2).1
            ++ (Token.ctrl .rparen :: rest)), cc)
        = parseLoop tbl
            (.term (reparseU (Term.app m (Term.app a b)) c).1 :: st, rest, cc)
      rw [parseLoop_inl (pstep_shift_lparen_over hg)]
      rw [ihn (.ctrl .lparen :: .term (reparseU m c).1 :: st)
        (.ctrl .rparen :: rest) (reparseU m c).2 cc (GoodCtx.parenArg hg)
        (fun _ _ h => by cases h)]
      rw [parseLoop_inl pstep_shift_closeparen]
      rw [parseLoop_inl pstep_parenRed]
      exact parseLoop_inl pstep_appRed


/-- A valid name character is not a control character. -/
theorem validNameChar_not_ctrl {ch : Char} (h : validNameChar ch = true) :
    isCtrlChar ch = false := by
  simp only [validNameChar, Bool.and_eq_true, Bool.not_eq_true'] at h
  exact h.1.1.1.1

/-- Tokens of a parenthesized printed subterm: the inner tokens wrapped in
parentheses, the counter as for the inner tokens. -/
theorem charsTokens_wrap {s : String} {toks : List Token} {c c' : Nat}
    (h : charsTokens s.data c = (toks, c')) :
    charsTokens (("(" ++ s ++ ")") : String).data c
      = (Token.ctrl CtrlKind.lparen :: toks ++ [Token.ctrl CtrlKind.rparen],
        c') := by
  have hd2 : (("(" ++ s ++ ")") : String).data = '(' :: (s.data ++ [')']) := by
    simp [String.data_append]
  rw [hd2]
  rw [show charsTokens ('(' :: (s.data ++ [')'])) c
      = (Token.ctrl CtrlKind.lparen :: (charsTokens (s.data ++ [')']) c).1,
        (charsTokens (s.data ++ [')']) c).2) from rfl]
  rw [charsTokens_append, h]
  rfl

/-- Retokenizing the printed form of a well-formed term gives exactly its
token stream. -/
theorem charsTokens_lrepr (c₀ : Nat) :
    ∀ (t : Term) (env : List (String × Nat)), wfAux c₀ t env = true →
      ∀ c, charsTokens (Term.lrepr t).data c = tokensOf t c := by
  intro t
  induction t with
  | var v =>
    intro env hwf c
    simp only [wfAux, Bool.and_eq_true] at hwf
    obtain ⟨-, hname⟩ := hwf
    obtain ⟨c1, hd, hv⟩ := nameOk_spec hname
    have hnm : v.name = String.singleton c1 := stringDataEq hd
    have hc1 : isCtrlChar c1 = false := validNameChar_not_ctrl hv
    show charsTokens v.name.data c = tokensOf (Term.var v) c
    rw [hd]
    conv_lhs => rw [charsTokens]
    rw [if_neg (by simp [hc1])]
    rw [← hnm]
    rfl
  | abs v body ih =>
    intro env hwf c
    simp only [wfAux, Bool.and_eq_true] at hwf
    obtain ⟨⟨⟨hname, -⟩, -⟩, hbody⟩ := hwf
    obtain ⟨c1, hd, hv⟩ := nameOk_spec hname
    have hnm : v.name = String.singleton c1 := stringDataEq hd
    have hc1 : isCtrlChar c1 = false := validNameChar_not_ctrl hv
    have hdata : (Term.lrepr (Term.abs v body)).data
        = 'λ' :: c1 :: '.' :: (Term.lrepr body).data := by
      show ("λ" ++ v.name ++ "." ++ Term.lrepr body).data = _
      simp [String.data_append, hd]
    rw [hdata]
    have s1 : charsTokens ('λ' :: c1 :: '.' :: (Term.lrepr body).data) c
        = (Token.ctrl CtrlKind.lambdaTok ::
            (charsTokens (c1 :: '.' :: (Term.lrepr body).data) c).1,
          (charsTokens (c1 :: '.' :: (Term.lrepr body).data) c).2) := rfl
    have s2 : charsTokens (c1 :: '.' :: (Term.lrepr body).data) c
        = (Token.varTok ⟨String.singleton c1, c, false⟩ ::
            (charsTokens ('.' :: (Term.lrepr body).data) (c + 1)).1,
          (charsTokens ('.' :: (Term.lrepr body).data) (c + 1)).2) := by
      conv_lhs => rw [charsTokens]
      rw [if_neg (by simp [hc1])]
    have s3 : charsTokens ('.' :: (Term.lrepr body).data) (c + 1)
        = (Token.ctrl CtrlKind.dot ::
            (charsTokens (Term.lrepr body).data (c + 1)).1,
          (charsTokens (Term.lrepr body).data (c + 1)).2) := rfl
    rw [s1, s2, s3, ih _ hbody (c + 1), ← hnm]
    rfl
  | app m n ihm ihn =>
    intro env hwf c
    simp only [wfAux, Bool.and_eq_true] at hwf
    obtain ⟨hm, hn⟩ := hwf
    have he : Term.lrepr (Term.app m n) = funRepr m ++ argRepr n := by
      cases m <;> cases n <;> rfl
    rw [he, String.data_append, charsTokens_append]
    have hM : charsTokens (funRepr m).data c
        = (funToks m c, (tokensOf m c).2) := by
      cases m with
      | var w => exact ihm _ hm c
      | app a b => exact ihm _ hm c
      | abs w b => exact charsTokens_wrap (ihm _ hm c)
    rw [hM]
    have hN : charsTokens (argRepr n).data (tokensOf m c).2
        = (argToks n (tokensOf m c).2, (tokensOf n (tokensOf m c).2).2) := by
      cases n with
      | var w => exact ihn _ hn _
      | abs w b => exact charsTokens_wrap (ihn _ hn _)
      | app a b => exact charsTokens_wrap (ihn _ hn _)
    rw [hN]
    cases m <;> cases n <;> rfl

/-- `tokenize` on the printed form of a well-formed term. -/
theorem tokenize_lrepr {c₀ : Nat} {t : Term} (hwf : Wf t c₀ = true) (c : Nat) :
    tokenize (Term.lrepr t) c = .ok (tokensOf t c) := by
  show tokenizeChars (Term.lrepr t).data c = _
  rw [tokenizeChars_simple _ (lrepr_chars_simple c₀ t [] hwf) c,
    charsTokens_lrepr c₀ t [] hwf c]

/-- `parse` on the token stream of a printed well-formed term rebuilds the
reparse, leaving the id counter where the caller set it. -/
theorem parse_tokensOf (tbl : List (String × Term)) (t : Term) (c cc : Nat) :
    parse (tokensOf t c).1 tbl cc = .ok (.inl (reparseU t c).1, cc) := by
  have hsim := parse_sim tbl t [] [] c cc GoodCtx.nil (fun _ _ _ => rfl)
  rw [List.append_nil] at hsim
  have hloop : parseLoop tbl ([], (tokensOf t c).1, cc)
      = .ok ([.term (reparseU t c).1], cc) := by
    rw [hsim]
    exact parseLoop_inr pstep_halt
  obtain ⟨tok, toks, hco⟩ := tokensOf_cons t c
  rw [hco] at hloop
  rw [hco]
  show (match parseLoop tbl ([], tok :: toks, cc) with
    | .error e => Except.error e
    | .ok (stack, c') => parseAccept stack c') = _
  rw [hloop]
  rfl

end RoundTrip

section ReducerLemmas

/-- The generator is exhausted exactly on terms with no reachable redex. -/
theorem reductionStep_eq_none_iff (t : Term) :
    reductionStep t = none ↔ reachableRedex t = false := by
  induction t with
  | var v => simp [reductionStep, reachableRedex]
  | abs v body ih => simpa [reductionStep, reachableRedex] using ih
  | app m n ihm ihn =>
    cases m with
    | var w => simp [reductionStep, reachableRedex]
    | abs w b => simp [reductionStep, reachableRedex]
    | app a b => simpa [reductionStep, reachableRedex] using ihm

end ReducerLemmas

section ChurchLemmas

/-- The spine of `church_numeral` after the outer binding pass: every `f`
variable carries the binder's id and is marked bound. -/
def boundSpine (fid : Nat) : Nat → Term
  | 0 => .var ⟨"f", fid, true⟩
  | k + 1 => .app (boundSpine fid k) (.var ⟨"f", fid, true⟩)

theorem bind_fSpine_ne (c k : Nat) (v : PyVar) (h : v.name ≠ "f") :
    Term.bind (fSpine c k) v = .ok (fSpine c k) := by
  have h' : ¬ ("f" = v.name) := fun e => h e.symm
  induction k with
  | zero => simp [fSpine, Term.bind, h']
  | succ k ih =>
    simp [fSpine, Term.bind, h', ih, Except.bind]
    rfl

theorem bind_fSpine_f (c k : Nat) (v : PyVar) (h : v.name = "f") :
    Term.bind (fSpine c k) v = .ok (boundSpine v.id k) := by
  induction k with
  | zero => simp [fSpine, Term.bind, boundSpine, h]
  | succ k ih =>
    simp [fSpine, Term.bind, boundSpine, h, ih, Except.bind]
    rfl

theorem churchLoop_boundSpine (fid k i : Nat) :
    churchLoop fid (boundSpine fid k) i = some (i + k) := by
  induction k generalizing i with
  | zero => simp [boundSpine, churchLoop]
  | succ k ih =>
    simp [boundSpine, churchLoop, ih]
    omega

end ChurchLemmas

/-! ## Concrete terms used by the claims -/

/-- A fully bound term whose only redex sits in the argument side of an
application: `λa.λb.(ab)((λz.z)b)`. -/
def cexC1 : Term :=
  .abs ⟨"a", 0, false⟩ (.abs ⟨"b", 1, false⟩
    (.app (.app (.var ⟨"a", 0, true⟩) (.var ⟨"b", 1, true⟩))
          (.app (.abs ⟨"z", 2, false⟩ (.var ⟨"z", 2, true⟩))
                (.var ⟨"b", 1, true⟩))))

/-- The normal form of the REPL's preloaded `{true}`: `λx.λy.x`. -/
def trueNF : Term :=
  .abs ⟨"x", 0, false⟩ (.abs ⟨"y", 1, false⟩ (.var ⟨"x", 0, true⟩))

/-- The canonical right-nested Church numeral 2, `λf.λx.f(fx)`. -/
def canonicalTwo : Term :=
  .abs ⟨"f", 0, false⟩ (.abs ⟨"x", 1, false⟩
    (.app (.var ⟨"f", 0, true⟩)
          (.app (.var ⟨"f", 0, true⟩) (.var ⟨"x", 1, true⟩))))

/-- The parse of `{succ}=λn.λf.λx.f(nfx)`: `λn.λf.λx.f((nf)x)` with the
binding the parser produces. -/
def succTerm : Term :=
  .abs ⟨"n", 0, false⟩ (.abs ⟨"f", 1, false⟩ (.abs ⟨"x", 2, false⟩
    (.app (.var ⟨"f", 1, true⟩)
          (.app (.app (.var ⟨"n", 0, true⟩) (.var ⟨"f", 1, true⟩))
                (.var ⟨"x", 2, true⟩)))))

/-- The token list of `{succ}=λn.λf.λx.f(nfx)` starting from id counter 0. -/
def succToks : List Token :=
  [.shorthand "SUCC", .ctrl .defineShorthand,
   .ctrl .lambdaTok, .varTok ⟨"n", 0, false⟩, .ctrl .dot,
   .ctrl .lambdaTok, .varTok ⟨"f", 1, false⟩, .ctrl .dot,
   .ctrl .lambdaTok, .varTok ⟨"x", 2, false⟩, .ctrl .dot,
   .varTok ⟨"f", 3, false⟩, .ctrl .lparen,
   .varTok ⟨"n", 4, false⟩, .varTok ⟨"f", 5, false⟩,
   .varTok ⟨"x", 6, false⟩, .ctrl .rparen]

/-- The program's numeral for 2 created at id counter 7:
`λf.λx.(ff)x`. -/
def churchTwoAt7 : Term :=
  .abs ⟨"f", 10, false⟩ (.abs ⟨"x", 11, false⟩
    (.app (.app (.var ⟨"f", 10, true⟩) (.var ⟨"f", 10, true⟩))
          (.var ⟨"x", 11, true⟩)))

/-- The term the reducer stops at on input `{succ}2`:
`λf.λx.f((2f)x)` where `2` is `churchTwoAt7`. -/
def c2Final : Term :=
  .abs ⟨"f", 1, false⟩ (.abs ⟨"x", 2, false⟩
    (.app (.var ⟨"f", 1, true⟩)
          (.app (.app churchTwoAt7 (.var ⟨"f", 1, true⟩))
                (.var ⟨"x", 2, true⟩))))

/-- The program's numeral for 3 created at id counter 12:
`λf.λx.((ff)f)x`. -/
def churchThreeAt12 : Term :=
  .abs ⟨"f", 16, false⟩ (.abs ⟨"x", 17, false⟩
    (.app (.app (.app (.var ⟨"f", 16, true⟩) (.var ⟨"f", 16, true⟩))
                (.var ⟨"f", 16, true⟩))
          (.var ⟨"x", 17, true⟩)))

/-- The token list of `λx.λx.x` starting from id counter 0. -/
def lamxxToks : List Token :=
  [.ctrl .lambdaTok, .varTok ⟨"x", 0, false⟩, .ctrl .dot,
   .ctrl .lambdaTok, .varTok ⟨"x", 1, false⟩, .ctrl .dot,
   .varTok ⟨"x", 2, false⟩]

/-- The term `λx.λx.x` as the parser accepts it: the inner abstraction binds
the leaf, the outer binding pass stops at the same-named inner binder. -/
def lamxxTerm : Term :=
  .abs ⟨"x", 0, false⟩ (.abs ⟨"x", 1, false⟩ (.var ⟨"x", 1, true⟩))

/-! ## Claims -/

/-- Claim C1, counterexample.  The claim says the reduction sequence
terminates only when no further redex exists in the final term.  On the
fully bound term `λa.λb.(ab)((λz.z)b)` the generator yields no step at all
(the sequence is empty and the step function is exhausted), yet the term
still contains the redex `(λz.z)b` — in argument position, where the
reducer never descends. -/
theorem C1_counterexample :
    recursive_reduction 100 cexC1 = [] ∧ reductionStep cexC1 = none ∧
      hasRedex cexC1 = true ∧ Term.boundAttr cexC1 = true :=
  ⟨rfl, rfl, rfl, rfl⟩

/-- Claim C1, amended.  The reduction sequence produced by the Reducer
terminates exactly when the current term has no redex reachable through
the function sides of applications and the bodies of abstractions; the
argument side of an application is never reduced, so a redex there may
remain in the final term (the claim's clause "otherwise in the argument
side if that side is reducible" does not exist in the code). -/
theorem C1_amended (t : Term) :
    reductionStep t = none ↔ reachableRedex t = false := by
  induction t with
  | var v => simp [reductionStep, reachableRedex]
  | abs v body ih => simpa [reductionStep, reachableRedex] using ih
  | app m n ihm ihn =>
    cases m with
    | var w => simp [reductionStep, reachableRedex]
    | abs w b => simp [reductionStep, reachableRedex]
    | app a b => simpa [reductionStep, reachableRedex] using ihm

/-- Claim C3 (code bug).  The claim says `church_to_int` reports `n` exactly
on the canonical shape `λf.λx. f (f (... (f x) ...))` and reports nothing
rather than raising on any deviation.  In fact (a) on `λx.λy.x` — the
normal form of the REPL's own preloaded `{true}` — the code evaluates `t.n`
on a `Variable` and raises `AttributeError`, and (b) the canonical
right-nested numeral `λf.λx.f(fx)` is *not* decoded (the code matches the
left-nested spine `(ff)x` its own `church_numeral` builds, which decodes
to 2). -/
theorem C3_code_bug :
    church_to_int trueNF =
      .error (.attributeError "Variable object has no attribute n")
    ∧ church_to_int canonicalTwo = .ok none
    ∧ church_to_int (.abs ⟨"f", 0, false⟩ (.abs ⟨"x", 1, false⟩
        (.app (.app (.var ⟨"f", 0, true⟩) (.var ⟨"f", 0, true⟩))
              (.var ⟨"x", 1, true⟩)))) = .ok (some 2) :=
  ⟨rfl, rfl, rfl⟩

/-- Claim C5, counterexample.  The claim says reusing an outer bound
variable's name in a nested abstraction (e.g. `λx.λx.x`) raises a rebinding
error.  In fact `Abstraction.bind` returns as soon as the nested
abstraction's own bound name matches the name being bound, so `λx.λx.x`
tokenizes and parses successfully. -/
theorem C5_counterexample :
    tokenize "λx.λx.x" 0 = .ok (lamxxToks, 3) ∧
      parse lamxxToks [] 3 = .ok (.inl lamxxTerm, 3) := by
  constructor
  · rfl
  · have h1 : parseLoop [] ([], lamxxToks, 3) = .ok ([.term lamxxTerm], 3) :=
      parseRun_correct
        (show parseRun [] 100 ([], lamxxToks, 3) = some (.ok ([.term lamxxTerm], 3)) from rfl)
    simp only [parse, h1]
    rfl

/-- Claim C5, amended.  Whenever the binding pass directly reaches a
`Variable` already marked bound whose name matches the name being bound, it
raises the rebinding `ValueError`; but the pass never descends past a
nested `Abstraction` whose own bound name equals that name, so reusing an
outer bound variable's name in a nested abstraction (`λx.λx.x`) is accepted
— the inner binder shadows, the outer binding pass binds nothing there. -/
theorem C5_amended (x w : PyVar) (i : Nat) (b : Term)
    (h : w.name = x.name) :
    Term.bind (.var ⟨x.name, i, true⟩) x =
      .error (.valueError (x.name ++ " is already bound"))
    ∧ Term.bind (.abs w b) x = .ok (.abs w b) := by
  constructor
  · simp [Term.bind]
  · simp [Term.bind, h]

/-- Witness for the amended claim C5 at concrete inputs. -/
theorem C5_amended_witness :
    Term.bind (.var ⟨"x", 7, true⟩) ⟨"x", 9, false⟩ =
      .error (.valueError ("x" ++ " is already bound"))
    ∧ Term.bind (.abs ⟨"x", 5, false⟩ (.var ⟨"x", 5, true⟩)) ⟨"x", 9, false⟩ =
      .ok (.abs ⟨"x", 5, false⟩ (.var ⟨"x", 5, true⟩)) :=
  C5_amended ⟨"x", 9, false⟩ ⟨"x", 5, false⟩ 7 (.var ⟨"x", 5, true⟩) rfl

/-- Claim C2 (code bug).  With `succ = λn.λf.λx.f(nfx)` registered, the
claim says reducing `succ 2` to the end of the step sequence yields a term
alpha-equivalent to the program's numeral for 3.  In fact the Reducer never
reduces inside the argument side of an application: on `{succ}2` it performs
exactly one step, stopping at `λf.λx.f((2f)x)`, which still contains
redexes, decodes as no Church numeral at all, and is not alpha-equivalent
to `church_numeral 3`. -/
theorem C2_code_bug :
    tokenize "{succ}=λn.λf.λx.f(nfx)" 0 = .ok (succToks, 7)
    ∧ parse succToks [] 7 = .ok (.inr ⟨"SUCC", succTerm⟩, 7)
    ∧ tokenize "{succ}2" 7 = .ok ([.shorthand "SUCC", .shorthand "2"], 7)
    ∧ parse [.shorthand "SUCC", .shorthand "2"] [("SUCC", succTerm)] 7 =
        .ok (.inl (.app succTerm churchTwoAt7), 12)
    ∧ recursive_reduction 100 (.app succTerm churchTwoAt7) = [c2Final]
    ∧ reductionStep c2Final = none
    ∧ hasRedex c2Final = true
    ∧ church_to_int c2Final = .ok none
    ∧ church_numeral 3 12 = .ok (churchThreeAt12, 18)
    ∧ Term.alpha_eq c2Final churchThreeAt12 (fun _ => none) = false := by
  refine ⟨by rfl, ?_, by rfl, ?_, by rfl, by rfl, by rfl, by rfl, by rfl, by rfl⟩
  · have h1 : parseLoop [] ([], succToks, 7) = .ok ([.defn ⟨"SUCC", succTerm⟩], 7) :=
      parseRun_correct
        (show parseRun [] 100 ([], succToks, 7)
          = some (.ok ([.defn ⟨"SUCC", succTerm⟩], 7)) by rfl)
    simp only [parse, h1]
    rfl
  · have h2 : parseLoop [("SUCC", succTerm)]
        ([], [.shorthand "SUCC", .shorthand "2"], 7)
        = .ok ([.term (.app succTerm churchTwoAt7)], 12) :=
      parseRun_correct
        (show parseRun [("SUCC", succTerm)] 100
            ([], [.shorthand "SUCC", .shorthand "2"], 7)
          = some (.ok ([.term (.app succTerm churchTwoAt7)], 12)) by rfl)
    simp only [parse, h2]
    rfl

theorem church_numeral_succ_decode (m c : Nat) :
    ((church_numeral (m + 1) c).bind fun p => church_to_int p.1)
      = .ok (some (m + 1)) := by
  have hx : ("x" : String) ≠ "f" := by decide
  have h1 := bind_fSpine_ne c m ⟨"x", c + (m + 1) + 2, false⟩ hx
  have h2 := bind_fSpine_f c m ⟨"f", c + (m + 1) + 1, false⟩ rfl
  have e1 : mkAbs ⟨"x", c + (m + 1) + 2, false⟩
      (Term.app (fSpine c m) (.var ⟨"x", c, false⟩)) =
      .ok (.abs ⟨"x", c + (m + 1) + 2, false⟩
        (.app (fSpine c m) (.var ⟨"x", c + (m + 1) + 2, true⟩))) := by
    simp only [mkAbs, Term.bind, h1]
    rfl
  have e2 : mkAbs ⟨"f", c + (m + 1) + 1, false⟩
      (Term.abs ⟨"x", c + (m + 1) + 2, false⟩
        (.app (fSpine c m) (.var ⟨"x", c + (m + 1) + 2, true⟩))) =
      .ok (.abs ⟨"f", c + (m + 1) + 1, false⟩
        (.abs ⟨"x", c + (m + 1) + 2, false⟩
          (.app (boundSpine (c + (m + 1) + 1) m)
            (.var ⟨"x", c + (m + 1) + 2, true⟩)))) := by
    simp only [mkAbs, Term.bind, h2]
    rfl
  have e3 : church_numeral (m + 1) c =
      .ok (.abs ⟨"f", c + (m + 1) + 1, false⟩
        (.abs ⟨"x", c + (m + 1) + 2, false⟩
          (.app (boundSpine (c + (m + 1) + 1) m)
            (.var ⟨"x", c + (m + 1) + 2, true⟩))), c + (m + 1) + 3) := by
    simp only [church_numeral]
    rw [if_neg (Nat.succ_ne_zero m), Nat.add_sub_cancel, e1]
    show (mkAbs _ _).bind _ = _
    rw [e2]
    rfl
  have hcl := churchLoop_boundSpine (c + (m + 1) + 1) m 1
  rw [e3]
  show church_to_int (.abs ⟨"f", c + (m + 1) + 1, false⟩
      (.abs ⟨"x", c + (m + 1) + 2, false⟩
        (.app (boundSpine (c + (m + 1) + 1) m)
          (.var ⟨"x", c + (m + 1) + 2, true⟩)))) = Except.ok (some (m + 1))
  simp [church_to_int, hcl, Nat.add_comm 1 m]

/-- Claim C4 (confirmed).  For every `n`, decoding the numeral the program
constructs gives back `n` (`church_to_int(church_numeral(n)) = n`), at every
value of the id counter; and the numeral for 0 is `λf.λx.x` (so it decodes
to 0, and the numeral for 3 decodes to 3 as instances). -/
theorem C4_confirmed (n c : Nat) :
    ((church_numeral n c).bind fun p => church_to_int p.1) = .ok (some n)
    ∧ church_numeral 0 c =
        .ok (.abs ⟨"f", c + 1, false⟩ (.abs ⟨"x", c + 2, false⟩
          (.var ⟨"x", c + 2, true⟩)), c + 3) := by
  have e0 : church_numeral 0 c =
      .ok (.abs ⟨"f", c + 1, false⟩ (.abs ⟨"x", c + 2, false⟩
        (.var ⟨"x", c + 2, true⟩)), c + 3) := by rfl
  refine ⟨?_, e0⟩
  cases n with
  | zero =>
    rw [e0]
    show church_to_int (.abs ⟨"f", c + 1, false⟩ (.abs ⟨"x", c + 2, false⟩
      (.var ⟨"x", c + 2, true⟩))) = Except.ok (some 0)
    simp [church_to_int]
  | succ m => exact church_numeral_succ_decode m c

/-- Claim C6, counterexample.  The claim says a bare shorthand whose name
is not a numeral is looked up in the table and, when absent, fails with the
undefined-reference `KeyError` naming it.  But `digits_p.match` only anchors
at the first character: for the (non-numeral) name `1X` — from input
`{1x}` — the parser runs `int('1X')`, which raises `ValueError`, not the
undefined-shorthand `KeyError`. -/
theorem C6_counterexample :
    tokenize "\x7b1x\x7d" 0 = .ok ([.shorthand "1X"], 0)
    ∧ parse [.shorthand "1X"] [] 0 =
        .error (.valueError "invalid literal for int() with base 10: '1X'")
    ∧ parse [.shorthand "1X"] [] 0 ≠
        .error (.keyError ("undefined shorthand " ++ pyRepr "1X")) := by
  have h1 : parseLoop [] ([], [.shorthand "1X"], 0) =
      .error (.valueError "invalid literal for int() with base 10: '1X'") :=
    parseRun_correct
      (show parseRun [] 10 ([], [.shorthand "1X"], 0)
        = some (.error (.valueError "invalid literal for int() with base 10: '1X'")) by rfl)
  refine ⟨by rfl, ?_, ?_⟩
  · simp only [parse, h1]
  · simp only [parse, h1]
    intro hcontra
    cases hcontra

/-- Claim C6, amended.  A bare shorthand not immediately followed by `=`
resolves as follows: if its name *begins with a digit* it goes down the
numeral path — `int(name)` is computed, synthesizing the Church numeral for
a well-formed numeral and raising an uncaught `ValueError` otherwise; only
a name not beginning with a digit is looked up in the caller-supplied
table, failing with the undefined-reference `KeyError` naming that
shorthand when absent. -/
theorem C6_amended (s : String) (tbl : List (String × Term)) (c : Nat) :
    parse [.shorthand s] tbl c =
      (if startsWithDigit s then
        match pyInt s with
        | some n =>
          (match church_numeral n c with
            | .ok (t, c') => .ok (.inl t, c')
            | .error e => .error e)
        | none =>
          .error (.valueError ("invalid literal for int() with base 10: " ++ pyRepr s))
      else
        match lookupTbl tbl s with
        | some t => .ok (.inl t, c)
        | none => .error (.keyError ("undefined shorthand " ++ pyRepr s))) := by
  have hshift : pstep tbl ([], [Token.shorthand s], c) =
      .inl ([StackElem.shorthand s], [], c) := rfl
  by_cases hd : startsWithDigit s = true
  · rcases hp : pyInt s with _ | n
    · have hstep : pstep tbl ([StackElem.shorthand s], [], c) =
          .inr (.error (.valueError ("invalid literal for int() with base 10: " ++ pyRepr s))) := by
        simp only [pstep, tryParenRed, tryAppRed, absGate, tryAbsRed,
          List.isEmpty_nil, if_true, tryDefnRed, notDefineNext, tryShRed, hd, hp]
      simp only [parse, parseLoop_inl hshift, parseLoop_inr hstep, hd, hp, if_true]
    · rcases hc : church_numeral n c with e | ⟨t, c'⟩
      · have hstep : pstep tbl ([StackElem.shorthand s], [], c) = .inr (.error e) := by
          simp only [pstep, tryParenRed, tryAppRed, absGate, tryAbsRed,
            List.isEmpty_nil, if_true, tryDefnRed, notDefineNext, tryShRed, hd, hp, hc]
        simp only [parse, parseLoop_inl hshift, parseLoop_inr hstep, hd, hp, hc, if_true]
      · have hstep : pstep tbl ([StackElem.shorthand s], [], c) =
            .inl ([StackElem.term t], [], c') := by
          simp only [pstep, tryParenRed, tryAppRed, absGate, tryAbsRed,
            List.isEmpty_nil, if_true, tryDefnRed, notDefineNext, tryShRed, hd, hp, hc]
        have hhalt : pstep tbl ([StackElem.term t], [], c') =
            .inr (.ok ([StackElem.term t], c')) := rfl
        simp only [parse, parseLoop_inl hshift, parseLoop_inl hstep,
          parseLoop_inr hhalt, hd, hp, hc, if_true]
        rfl
  · rcases hl : lookupTbl tbl s with _ | t
    · have hstep : pstep tbl ([StackElem.shorthand s], [], c) =
          .inr (.error (.keyError ("undefined shorthand " ++ pyRepr s))) := by
        simp [pstep, tryParenRed, tryAppRed, absGate, tryAbsRed,
          tryDefnRed, notDefineNext, tryShRed, hd, hl]
      simp [parse, parseLoop_inl hshift, parseLoop_inr hstep, hd, hl]
    · have hstep : pstep tbl ([StackElem.shorthand s], [], c) =
          .inl ([StackElem.term t], [], c) := by
        simp [pstep, tryParenRed, tryAppRed, absGate, tryAbsRed,
          tryDefnRed, notDefineNext, tryShRed, hd, hl]
      have hhalt : pstep tbl ([StackElem.term t], [], c) =
          .inr (.ok ([StackElem.term t], c)) := rfl
      simp [parse, parseLoop_inl hshift, parseLoop_inl hstep,
        parseLoop_inr hhalt, hd, hl]
      rfl

/-- The stack the parser is left with on input `λ2.2`: the name `2` lexes
as a numeral, so both occurrences are replaced by synthesized Church
numerals for 2 and the stack never collapses to a single term. -/
def c7Stack : List StackElem :=
  [.term (.abs ⟨"f", 8, false⟩ (.abs ⟨"x", 9, false⟩
      (.app (.app (.var ⟨"f", 8, true⟩) (.var ⟨"f", 8, true⟩))
        (.var ⟨"x", 9, true⟩)))),
   .ctrl .dot,
   .term (.abs ⟨"f", 3, false⟩ (.abs ⟨"x", 4, false⟩
      (.app (.app (.var ⟨"f", 3, true⟩) (.var ⟨"f", 3, true⟩))
        (.var ⟨"x", 4, true⟩)))),
   .ctrl .lambdaTok]

/-- Claim C7, counterexample.  The claim says every closed (fully bound)
term pretty-prints and re-parses to an alpha-equivalent term.  The closed
term `λ2.2` (a variable legitimately named `2` in the AST) prints to
`"λ2.2"`, but the digit name retokenizes as a numeral, so the parse
synthesizes Church numerals for both occurrences and fails with
`SyntaxError('incomplete parse')`: the round trip does not return a term
at all. -/
theorem C7_counterexample :
    Term.boundAttr (Term.abs ⟨"2", 0, false⟩ (Term.var ⟨"2", 0, true⟩)) = true
    ∧ Term.lrepr (Term.abs ⟨"2", 0, false⟩ (Term.var ⟨"2", 0, true⟩)) = "λ2.2"
    ∧ (tokenize "λ2.2" 0).bind (fun p => parse p.1 [] p.2)
        = .error (.syntaxError "incomplete parse") := by
  refine ⟨rfl, rfl, ?_⟩
  have htok : tokenize "λ2.2" 0
      = .ok ([.ctrl .lambdaTok, .shorthand "2", .ctrl .dot, .shorthand "2"],
          0) := rfl
  rw [htok]
  have hloop : parseLoop []
      ([], [.ctrl .lambdaTok, .shorthand "2", .ctrl .dot, .shorthand "2"], 0)
      = .ok (c7Stack, 10) :=
    parseRun_correct (show parseRun [] 40
      ([], [.ctrl .lambdaTok, .shorthand "2", .ctrl .dot, .shorthand "2"], 0)
      = some (.ok (c7Stack, 10)) from rfl)
  show parse [.ctrl .lambdaTok, .shorthand "2", .ctrl .dot, .shorthand "2"]
      [] 0 = _
  simp only [parse, hloop]
  rfl

/-- Claim C7, amended.  For every well-formed term — every leaf bound to
its innermost enclosing binder of the same name, every name a single
character that is not a control character, a brace, a digit or whitespace,
and all binder ids below the global id counter (the invariant of every
term the parser itself builds) — pretty-printing, retokenizing and
re-parsing succeeds, under any shorthand table, and returns exactly the
reparse of the term (the same tree with ids renumbered in token order),
which is alpha-equivalent to the original.  For merely closed (fully
bound) terms the claim fails: see the counterexample. -/
theorem C7_amended (t : Term) (c₀ : Nat) (tbl : List (String × Term))
    (hwf : Wf t c₀ = true) :
    (tokenize (Term.lrepr t) c₀).bind (fun p => parse p.1 tbl p.2)
      = .ok (.inl (reparseU t c₀).1, (tokensOf t c₀).2)
    ∧ Term.alpha_eq t (reparseU t c₀).1 (fun k => none) = true := by
  constructor
  · rw [tokenize_lrepr hwf c₀]
    show parse (tokensOf t c₀).1 tbl (tokensOf t c₀).2 = _
    exact parse_tokensOf tbl t c₀ (tokensOf t c₀).2
  · exact alpha_reparse_closed t c₀ c₀ hwf le_rfl

/-- Witness for the amended claim C7 at the concrete input `λx.x`. -/
theorem C7_amended_witness :
    Wf (Term.abs ⟨"x", 0, false⟩ (Term.var ⟨"x", 0, true⟩)) 1 = true
    ∧ ((tokenize (Term.lrepr (Term.abs ⟨"x", 0, false⟩
          (Term.var ⟨"x", 0, true⟩))) 1).bind (fun p => parse p.1 [] p.2)
        = .ok (.inl (reparseU (Term.abs ⟨"x", 0, false⟩
              (Term.var ⟨"x", 0, true⟩)) 1).1,
            (tokensOf (Term.abs ⟨"x", 0, false⟩
              (Term.var ⟨"x", 0, true⟩)) 1).2)
      ∧ Term.alpha_eq (Term.abs ⟨"x", 0, false⟩ (Term.var ⟨"x", 0, true⟩))
          (reparseU (Term.abs ⟨"x", 0, false⟩ (Term.var ⟨"x", 0, true⟩)) 1).1
          (fun k => none) = true) :=
  ⟨rfl, C7_amended (Term.abs ⟨"x", 0, false⟩ (Term.var ⟨"x", 0, true⟩)) 1 []
    rfl⟩

/-- Claim C8 (confirmed).  The tokenizer raises its malformed-input
`SyntaxError` exactly when the scan reaches a position from which no match
can start contiguously — and `badStart` characterizes those positions by
characters: a non-whitespace character that is either a bare `}` or a `{`
not opening a well-formed `{[^}]+}` shorthand.  In particular whitespace is
always consumed silently (a whitespace character never blocks the scan: the
leading `\s*` backtracks into the variable class if necessary), a stuck
position mid-input and leftover trailing text are the same condition, and a
fully scanned input yields only the recognized token kinds (`Token` has
exactly the control, shorthand/numeral and variable forms). -/
theorem C8_confirmed (code : String) (c : Nat) :
    tokenize code c = .error (.syntaxError "malformed input") ↔
      ∃ suffix, ScanReach code.data suffix ∧ badStart suffix = true :=
  tokenizeChars_error_iff code.data.length code.data le_rfl c

/-- Claim C9, counterexample.  The claim says parsing the empty token
sequence fails with the incomplete-parse error (its final stack, the empty
one, not being a single Term/Definition).  In fact the initial
`lookahead = next(tokens)` escapes with an uncaught `StopIteration` before
the loop ever runs. -/
theorem C9_counterexample :
    parse [] [] 0 = .error .stopIteration ∧
      parse [] [] 0 ≠ .error (.syntaxError "incomplete parse") := by
  refine ⟨rfl, ?_⟩
  intro h
  cases h

/-- Claim C9, amended.  For every *nonempty* token sequence: parsing
succeeds with a result exactly when the loop's final stack is a single
`Term` or a single `Definition` (and the result is that element); any other
final stack shape fails with `SyntaxError('incomplete parse')`.  The empty
token sequence instead escapes with an uncaught `StopIteration`. -/
theorem C9_amended (la : Token) (rest : List Token)
    (tbl : List (String × Term)) (c : Nat) :
    (∀ r c', parse (la :: rest) tbl c = .ok (r, c') →
      parseLoop tbl ([], la :: rest, c) =
        .ok ([match r with | .inl t => .term t | .inr d => .defn d], c'))
    ∧ (∀ st c', parseLoop tbl ([], la :: rest, c) = .ok (st, c') →
        (∀ t, st ≠ [.term t]) → (∀ d, st ≠ [.defn d]) →
        parse (la :: rest) tbl c = .error (.syntaxError "incomplete parse"))
    ∧ (∀ t c', parseLoop tbl ([], la :: rest, c) = .ok ([.term t], c') →
        parse (la :: rest) tbl c = .ok (.inl t, c'))
    ∧ (∀ d c', parseLoop tbl ([], la :: rest, c) = .ok ([.defn d], c') →
        parse (la :: rest) tbl c = .ok (.inr d, c')) := by
  refine ⟨?_, ?_, ?_, ?_⟩
  · intro r c' h
    simp only [parse] at h
    rcases hl : parseLoop tbl ([], la :: rest, c) with e | ⟨st, c''⟩ <;> rw [hl] at h
    · cases h
    · match st, h with
      | [StackElem.term t], h =>
        injection h with h'
        injection h' with h1 h2
        subst h1
        subst h2
        rfl
      | [StackElem.defn d], h =>
        injection h with h'
        injection h' with h1 h2
        subst h1
        subst h2
        rfl
  · intro st c' hl ht hd
    simp only [parse, hl]
    match st, ht, hd with
    | [], _, _ => rfl
    | [StackElem.ctrl k], _, _ => rfl
    | [StackElem.shorthand s], _, _ => rfl
    | [StackElem.term t], ht, _ => exact absurd rfl (ht t)
    | [StackElem.defn d], _, hd => exact absurd rfl (hd d)
    | e1 :: e2 :: st, _, _ => cases e1 <;> rfl
  · intro t c' hl
    simp only [parse, hl]
    rfl
  · intro d c' hl
    simp only [parse, hl]
    rfl

/-- Witness for the amended claim C9 at a concrete input: parsing the
single variable token `x` succeeds with that variable term via a
single-`Term` final stack, discharging each hypothesis concretely. -/
theorem C9_amended_witness :
    parse [.varTok ⟨"x", 0, false⟩] [] 1 = .ok (.inl (.var ⟨"x", 0, false⟩), 1) := by
  refine (C9_amended (.varTok ⟨"x", 0, false⟩) [] [] 1).2.2.1 (.var ⟨"x", 0, false⟩) 1 ?_
  exact parseRun_correct
    (show parseRun [] 10 ([], [.varTok ⟨"x", 0, false⟩], 1)
      = some (.ok ([.term (.var ⟨"x", 0, false⟩)], 1)) by rfl)

/-- Claim C10 (confirmed).  `alpha_eq` as implemented is symmetric for every
renaming correspondence (in particular for the default empty one): the
correspondence always maps the smaller id to the larger, independently of
argument order, and mismatched constructors fail on both sides. -/
theorem C10_alpha_eq_symmetric (s t : Term) (renames : Nat → Option Nat) :
    s.alpha_eq t renames = t.alpha_eq s renames := by
  induction s generalizing t renames with
  | var v =>
    cases t <;> simp [Term.alpha_eq, Nat.min_comm, Nat.max_comm]
  | abs v b ih =>
    cases t with
    | var w => simp [Term.alpha_eq]
    | app m n => simp [Term.alpha_eq]
    | abs w c =>
      show b.alpha_eq c _ = c.alpha_eq b _
      rw [Nat.min_comm w.id v.id, Nat.max_comm w.id v.id]
      exact ih c _
  | app m n ihm ihn =>
    cases t with
    | var w => simp [Term.alpha_eq]
    | abs w c => simp [Term.alpha_eq]
    | app m' n' =>
      show (m.alpha_eq m' renames && n.alpha_eq n' renames)
        = (m'.alpha_eq m renames && n'.alpha_eq n renames)
      rw [ihm, ihn]

end LC
